import Mathlib

/-!
Shallow embedding of the backtracking puzzle solvers of the `arcade`
repository, and proofs about them.

Peg solitaire (`references/peg-solitaire/british/dfs.py`,
`references/peg-solitaire/british/bfs-memory-british.py`,
`references/peg-solitaire/european/search-sep.py`): the Python code keeps a
module-level 7x7 board of ints (`0` = void cell outside the cross, positive =
a peg carrying a numeric id, negative (`EMPTY = -1`) = an empty hole).  The
board is embedded as a total function on `Fin 7 × Fin 7`; the Python methods
index with plain ints, so cell reads and writes are embedded through
`getCell` / `setCell`, which take integer coordinates and are the identity /
a no-op outside the 7x7 range (every access the solvers perform is guarded
in range).  Mutation is embedded as state passing.
-/

namespace Arcade

/-- Board side, `N = 7` in the Python sources. -/
def N : ℤ := 7

/-- Empty-hole marker, `EMPTY = -1` in the Python sources. -/
def EMPTY : ℤ := -1

/-- A 7x7 peg board: the module-level `board` list of lists of ints. -/
abbrev PegBoard := Fin 7 × Fin 7 → ℤ

/-- Integer coordinates that land inside the 7x7 board. -/
def inRange (i c : ℤ) : Prop := 0 ≤ i ∧ i < 7 ∧ 0 ≤ c ∧ c < 7

instance (i c : ℤ) : Decidable (inRange i c) :=
  inferInstanceAs (Decidable (_ ∧ _ ∧ _ ∧ _))

/-- Convert in-range integer coordinates to a board index. -/
def toIdx (i c : ℤ) (h : inRange i c) : Fin 7 × Fin 7 :=
  (⟨i.toNat, by obtain ⟨h1, h2, h3, h4⟩ := h; omega⟩,
   ⟨c.toNat, by obtain ⟨h1, h2, h3, h4⟩ := h; omega⟩)

/-- Read `board[i][c]` (0 outside the board; all source reads are guarded). -/
def getCell (b : PegBoard) (i c : ℤ) : ℤ :=
  if h : inRange i c then b (toIdx i c h) else 0

/-- Write `board[i][c] = v` (a no-op outside the board). -/
def setCell (b : PegBoard) (i c : ℤ) (v : ℤ) : PegBoard :=
  if h : inRange i c then Function.update b (toIdx i c h) v else b

theorem toIdx_fst (i c : ℤ) (h : inRange i c) : ((toIdx i c h).1 : ℤ) = i := by
  obtain ⟨h1, h2, h3, h4⟩ := h
  simp [toIdx]
  omega

theorem toIdx_snd (i c : ℤ) (h : inRange i c) : ((toIdx i c h).2 : ℤ) = c := by
  obtain ⟨h1, h2, h3, h4⟩ := h
  simp [toIdx]
  omega

theorem toIdx_inj {i c i' c' : ℤ} (h : inRange i c) (h' : inRange i' c')
    (he : toIdx i c h = toIdx i' c' h') : i = i' ∧ c = c' := by
  have h1 := toIdx_fst i c h
  have h2 := toIdx_snd i c h
  have h3 := toIdx_fst i' c' h'
  have h4 := toIdx_snd i' c' h'
  rw [he] at h1 h2
  omega

theorem getCell_idx (b : PegBoard) (i c : ℤ) (h : inRange i c) :
    getCell b i c = b (toIdx i c h) := by
  simp [getCell, h]

theorem getCell_of_fin (b : PegBoard) (p : Fin 7 × Fin 7) :
    getCell b (p.1 : ℤ) (p.2 : ℤ) = b p := by
  have h : inRange (p.1 : ℤ) (p.2 : ℤ) := by
    refine ⟨by omega, by exact_mod_cast p.1.2, by omega, by exact_mod_cast p.2.2⟩
  rw [getCell_idx b _ _ h]
  congr 1

theorem toIdx_coords (p : Fin 7 × Fin 7) (h : inRange (p.1 : ℤ) (p.2 : ℤ)) :
    toIdx (p.1 : ℤ) (p.2 : ℤ) h = p := by
  ext <;> simp [toIdx]

theorem setCell_get_same (b : PegBoard) (i c v : ℤ) (h : inRange i c) :
    getCell (setCell b i c v) i c = v := by
  simp [setCell, getCell, h, Function.update]

theorem setCell_apply (b : PegBoard) (i c v : ℤ) (h : inRange i c)
    (p : Fin 7 × Fin 7) :
    setCell b i c v p = if p = toIdx i c h then v else b p := by
  simp [setCell, h, Function.update]

theorem setCell_apply_ne (b : PegBoard) (i c v : ℤ) (p : Fin 7 × Fin 7)
    (hne : ¬((p.1 : ℤ) = i ∧ (p.2 : ℤ) = c)) :
    setCell b i c v p = b p := by
  by_cases h : inRange i c
  · rw [setCell_apply b i c v h p]
    have : p ≠ toIdx i c h := by
      intro he
      exact hne ⟨by rw [he]; exact toIdx_fst i c h, by rw [he]; exact toIdx_snd i c h⟩
    simp [this]
  · simp [setCell, h]

theorem setCell_get_ne (b : PegBoard) (i c v i' c' : ℤ)
    (hne : ¬(i' = i ∧ c' = c)) :
    getCell (setCell b i c v) i' c' = getCell b i' c' := by
  unfold getCell
  by_cases h' : inRange i' c'
  · simp only [h', dif_pos]
    apply setCell_apply_ne
    rw [toIdx_fst i' c' h', toIdx_snd i' c' h']
    exact hne
  · simp [h']

/-- A move as produced by `get_valid_moves`: the Python list
`[i, col, dirchar, jumpedvalue]`, where the direction is one of the
characters w (up), a (left), s (down), d (right), and `jumped` is the board
value of the peg being jumped over (stored so that `undo_move` can restore
it). -/
structure PegMove where
  i : ℤ
  c : ℤ
  dir : Char
  jumped : ℤ
deriving DecidableEq, Repr

/-- Guard of the upward jump: `i > 1 and board[i-2][col] < 0 and board[i-1][col] > 0`. -/
def wCond (b : PegBoard) (i c : ℤ) : Prop :=
  i > 1 ∧ getCell b (i - 2) c < 0 ∧ getCell b (i - 1) c > 0

/-- Guard of the leftward jump: `col > 1 and board[i][col-2] < 0 and board[i][col-1] > 0`. -/
def aCond (b : PegBoard) (i c : ℤ) : Prop :=
  c > 1 ∧ getCell b i (c - 2) < 0 ∧ getCell b i (c - 1) > 0

/-- Guard of the downward jump: `i < N-2 and board[i+2][col] < 0 and board[i+1][col] > 0`. -/
def sCond (b : PegBoard) (i c : ℤ) : Prop :=
  i < N - 2 ∧ getCell b (i + 2) c < 0 ∧ getCell b (i + 1) c > 0

/-- Guard of the rightward jump: `col < N-2 and board[i][col+2] < 0 and board[i][col+1] > 0`. -/
def dCond (b : PegBoard) (i c : ℤ) : Prop :=
  c < N - 2 ∧ getCell b i (c + 2) < 0 ∧ getCell b i (c + 1) > 0

instance (b : PegBoard) (i c : ℤ) : Decidable (wCond b i c) :=
  inferInstanceAs (Decidable (_ ∧ _ ∧ _))

instance (b : PegBoard) (i c : ℤ) : Decidable (aCond b i c) :=
  inferInstanceAs (Decidable (_ ∧ _ ∧ _))

instance (b : PegBoard) (i c : ℤ) : Decidable (sCond b i c) :=
  inferInstanceAs (Decidable (_ ∧ _ ∧ _))

instance (b : PegBoard) (i c : ℤ) : Decidable (dCond b i c) :=
  inferInstanceAs (Decidable (_ ∧ _ ∧ _))

/-- The move appended for an upward jump: `[i, col, "w", board[i-1][col]]`. -/
def wMove (b : PegBoard) (i c : ℤ) : PegMove := ⟨i, c, 'w', getCell b (i - 1) c⟩

/-- The move appended for a leftward jump: `[i, col, "a", board[i][col-1]]`. -/
def aMove (b : PegBoard) (i c : ℤ) : PegMove := ⟨i, c, 'a', getCell b i (c - 1)⟩

/-- The move appended for a downward jump: `[i, col, "s", board[i+1][col]]`. -/
def sMove (b : PegBoard) (i c : ℤ) : PegMove := ⟨i, c, 's', getCell b (i + 1) c⟩

/-- The move appended for a rightward jump: `[i, col, "d", board[i][col+1]]`. -/
def dMove (b : PegBoard) (i c : ℤ) : PegMove := ⟨i, c, 'd', getCell b i (c + 1)⟩

/-- Moves contributed by cell `(i, c)` in the British `get_valid_moves`
(`british/dfs.py`, also `british/bfs-memory-british.py`): an `elif` chain, so
at most one move per peg, the first legal direction in w, a, s, d order. -/
def cellMovesBrit (b : PegBoard) (i c : ℤ) : List PegMove :=
  if 0 < getCell b i c then
    if wCond b i c then [wMove b i c]
    else if aCond b i c then [aMove b i c]
    else if sCond b i c then [sMove b i c]
    else if dCond b i c then [dMove b i c]
    else []
  else []

/-- Moves contributed by cell `(i, c)` in the European `get_valid_moves`
(`european/search-sep.py`): four independent `if`s, one move per legal
direction. -/
def cellMovesEuro (b : PegBoard) (i c : ℤ) : List PegMove :=
  if 0 < getCell b i c then
    (if wCond b i c then [wMove b i c] else []) ++
    (if aCond b i c then [aMove b i c] else []) ++
    (if sCond b i c then [sMove b i c] else []) ++
    (if dCond b i c then [dMove b i c] else [])
  else []

/-- Row-major enumeration of the 49 board cells, as scanned by
`for i, row in enumerate(board): for col in range(len(row))`. -/
def cellList : List (ℤ × ℤ) :=
  (List.range 7).flatMap fun i : ℕ => (List.range 7).map fun c : ℕ => ((i : ℤ), (c : ℤ))

/-- British `PegSolitaire.get_valid_moves` (dfs.py lines 24-39). -/
def getValidMovesBrit (b : PegBoard) : List PegMove :=
  cellList.flatMap fun p => cellMovesBrit b p.1 p.2

/-- European `PegSolitaire.get_valid_moves` (search-sep.py lines 31-46). -/
def getValidMovesEuro (b : PegBoard) : List PegMove :=
  cellList.flatMap fun p => cellMovesEuro b p.1 p.2

/-- Board mutation performed by `make_move` (identical in all three peg
files); the three assignments of each `case` are mirrored in order, each
read happening on the board produced by the previous write. -/
def applyBoard (b : PegBoard) (m : PegMove) : PegBoard :=
  match m.dir with
  | 'w' =>
    let b1 := setCell b (m.i - 1) m.c (-1)
    let b2 := setCell b1 (m.i - 2) m.c (getCell b1 m.i m.c)
    setCell b2 m.i m.c (-1)
  | 'a' =>
    let b1 := setCell b m.i (m.c - 1) (-1)
    let b2 := setCell b1 m.i (m.c - 2) (getCell b1 m.i m.c)
    setCell b2 m.i m.c (-1)
  | 's' =>
    let b1 := setCell b (m.i + 1) m.c (-1)
    let b2 := setCell b1 (m.i + 2) m.c (getCell b1 m.i m.c)
    setCell b2 m.i m.c (-1)
  | 'd' =>
    let b1 := setCell b m.i (m.c + 1) (-1)
    let b2 := setCell b1 m.i (m.c + 2) (getCell b1 m.i m.c)
    setCell b2 m.i m.c (-1)
  | _ => b

/-- Coordinate shift `make_move` applies to the move object itself
(`move[0] -= 2` and friends), so the recorded move holds the landing cell. -/
def shiftMove (m : PegMove) : PegMove :=
  match m.dir with
  | 'w' => { m with i := m.i - 2 }
  | 'a' => { m with c := m.c - 2 }
  | 's' => { m with i := m.i + 2 }
  | 'd' => { m with c := m.c + 2 }
  | _ => m

/-- Board mutation performed by `undo_move` on the popped (shifted) move. -/
def undoBoard (b : PegBoard) (m : PegMove) : PegBoard :=
  match m.dir with
  | 'w' =>
    let b1 := setCell b (m.i + 2) m.c (getCell b m.i m.c)
    let b2 := setCell b1 m.i m.c (-1)
    setCell b2 (m.i + 1) m.c m.jumped
  | 'a' =>
    let b1 := setCell b m.i (m.c + 2) (getCell b m.i m.c)
    let b2 := setCell b1 m.i m.c (-1)
    setCell b2 m.i (m.c + 1) m.jumped
  | 's' =>
    let b1 := setCell b (m.i - 2) m.c (getCell b m.i m.c)
    let b2 := setCell b1 m.i m.c (-1)
    setCell b2 (m.i - 1) m.c m.jumped
  | 'd' =>
    let b1 := setCell b m.i (m.c - 2) (getCell b m.i m.c)
    let b2 := setCell b1 m.i m.c (-1)
    setCell b2 m.i (m.c - 1) m.jumped
  | _ => b

/-- State of a depth-first peg search: the shared board plus the `self.moves`
stack. -/
structure PegState where
  board : PegBoard
  moves : List PegMove

/-- `make_move`: append the move (the stored list element ends up shifted,
since Python mutates the appended list in place), then mutate the board. -/
def makeMove (s : PegState) (m : PegMove) : PegState :=
  ⟨applyBoard s.board m, s.moves ++ [shiftMove m]⟩

/-- `undo_move`: pop the most recent (shifted) move and reverse its writes.
Popping from an empty stack never happens in the searches; it is embedded as
a no-op. -/
def undoMove (s : PegState) : PegState :=
  match s.moves.getLast? with
  | none => s
  | some m => ⟨undoBoard s.board m, s.moves.dropLast⟩

/-- Positions of pegs in row-major order, as accumulated by `is_solved`. -/
def pegPositions (b : PegBoard) : List (ℤ × ℤ) :=
  cellList.filter fun p => decide (0 < getCell b p.1 p.2)

/-- British `is_solved`: exactly one peg left and it sits on the centre
cell `(3, 3)`. -/
def isSolvedBrit (b : PegBoard) : Bool :=
  decide (pegPositions b = [((3 : ℤ), (3 : ℤ))])

/-- European `is_solved` (search-sep.py): exactly one peg left, anywhere. -/
def isSolvedEuro (b : PegBoard) : Bool :=
  decide ((pegPositions b).length = 1)

/-- `encode_board` (bfs-memory-british.py): the row-major occupancy bitmask,
`int("".join("1" if cell > 0 else "0" ...), 2)`. -/
def encodeBoard (b : PegBoard) : ℕ :=
  cellList.foldl (fun acc p => 2 * acc + (if 0 < getCell b p.1 p.2 then 1 else 0)) 0

/-- Number of pegs on the board (the termination measure of the searches). -/
def pegCount (b : PegBoard) : ℕ :=
  ((Finset.univ : Finset (Fin 7 × Fin 7)).filter fun p => 0 < b p).card

/-- A board is well formed when every empty hole holds the `EMPTY` marker
`-1` (negative cells are exactly `-1`), as in every board the programs
build; jumps write only `-1` and peg values, so this is invariant. -/
def WellFormed (b : PegBoard) : Prop :=
  ∀ p : Fin 7 × Fin 7, b p < 0 → b p = EMPTY

instance (b : PegBoard) : Decidable (WellFormed b) :=
  inferInstanceAs (Decidable (∀ p : Fin 7 × Fin 7, b p < 0 → b p = EMPTY))

/-- One iteration bundle of the `for move in get_valid_moves` loop of
`PegSolitaire.solve`, parameterised by the search on the remaining fuel. -/
def solveLoopF (next : PegState → Bool × PegState) :
    PegState → List PegMove → Bool × PegState
  | s, [] => (false, s)
  | s, m :: rest =>
    let r := next (makeMove s m)
    if r.1 then (true, r.2)
    else solveLoopF next (undoMove r.2) rest

/-- Fuelled embedding of `PegSolitaire.solve` (dfs.py lines 85-94): the
exhaustive depth-first search without a visited set.  The fuel only bounds
recursion depth; any fuel larger than the peg count is enough (see
`solveS_fuel_irrelevant`). -/
def solveS : ℕ → PegState → Bool × PegState
  | 0, s => (false, s)
  | fuel + 1, s =>
    if isSolvedBrit s.board then (true, s)
    else solveLoopF (solveS fuel) s (getValidMovesBrit s.board)

/-- One iteration bundle of the move loop of `PegSolitaire.dfs`
(bfs-memory-british.py), threading the visited set. -/
def dfsLoopF (next : PegState → List ℕ → Bool × PegState × List ℕ) :
    PegState → List PegMove → List ℕ → Bool × PegState × List ℕ
  | s, [], vis => (false, s, vis)
  | s, m :: rest, vis =>
    let r := next (makeMove s m) vis
    if r.1 then r
    else dfsLoopF next (undoMove r.2.1) rest r.2.2

/-- Fuelled embedding of `PegSolitaire.dfs` (bfs-memory-british.py lines
90-119): depth-first search with the visited set of encoded boards, which is
marked before the solved check and never shrunk (the removal on backtrack is
commented out in the source). -/
def dfsS : ℕ → PegState → List ℕ → Bool × PegState × List ℕ
  | 0, s, vis => (false, s, vis)
  | fuel + 1, s, vis =>
    if encodeBoard s.board ∈ vis then (false, s, vis)
    else if isSolvedBrit s.board then (true, s, encodeBoard s.board :: vis)
    else dfsLoopF (dfsS fuel) s (getValidMovesBrit s.board) (encodeBoard s.board :: vis)

/-- Build a board from a list of rows (the literal boards of the scripts). -/
def mkPegBoard (rows : List (List ℤ)) : PegBoard :=
  fun p => ((rows.getD p.1.1 []).getD p.2.1 0)

/-- Two boards are equal when they agree on every (in-range) cell. -/
theorem board_ext {b1 b2 : PegBoard}
    (h : ∀ i c : ℤ, getCell b1 i c = getCell b2 i c) : b1 = b2 := by
  funext p
  have hp := h (p.1 : ℤ) (p.2 : ℤ)
  rwa [getCell_of_fin, getCell_of_fin] at hp

/-- Common shape of the three board writes of `make_move`, for a jump with
origin `(oi, oc)`, jumped-over cell `(mi, mc)` and target `(ti, tc)`. -/
def applyJump (b : PegBoard) (oi oc mi mc ti tc : ℤ) : PegBoard :=
  let b1 := setCell b mi mc (-1)
  let b2 := setCell b1 ti tc (getCell b1 oi oc)
  setCell b2 oi oc (-1)

/-- Common shape of the three board writes of `undo_move`. -/
def undoJump (b : PegBoard) (oi oc mi mc ti tc j : ℤ) : PegBoard :=
  let b1 := setCell b oi oc (getCell b ti tc)
  let b2 := setCell b1 ti tc (-1)
  setCell b2 mi mc j

theorem applyBoard_w (b : PegBoard) (i c j : ℤ) :
    applyBoard b ⟨i, c, 'w', j⟩ = applyJump b i c (i - 1) c (i - 2) c := rfl

theorem applyBoard_a (b : PegBoard) (i c j : ℤ) :
    applyBoard b ⟨i, c, 'a', j⟩ = applyJump b i c i (c - 1) i (c - 2) := rfl

theorem applyBoard_s (b : PegBoard) (i c j : ℤ) :
    applyBoard b ⟨i, c, 's', j⟩ = applyJump b i c (i + 1) c (i + 2) c := rfl

theorem applyBoard_d (b : PegBoard) (i c j : ℤ) :
    applyBoard b ⟨i, c, 'd', j⟩ = applyJump b i c i (c + 1) i (c + 2) := rfl

theorem undoBoard_w (b : PegBoard) (i c j : ℤ) :
    undoBoard b ⟨i, c, 'w', j⟩ = undoJump b (i + 2) c (i + 1) c i c j := rfl

theorem undoBoard_a (b : PegBoard) (i c j : ℤ) :
    undoBoard b ⟨i, c, 'a', j⟩ = undoJump b i (c + 2) i (c + 1) i c j := rfl

theorem undoBoard_s (b : PegBoard) (i c j : ℤ) :
    undoBoard b ⟨i, c, 's', j⟩ = undoJump b (i - 2) c (i - 1) c i c j := rfl

theorem undoBoard_d (b : PegBoard) (i c j : ℤ) :
    undoBoard b ⟨i, c, 'd', j⟩ = undoJump b i (c - 2) i (c - 1) i c j := rfl

theorem applyJump_get_orig (b : PegBoard) (oi oc mi mc ti tc : ℤ)
    (ho : inRange oi oc) :
    getCell (applyJump b oi oc mi mc ti tc) oi oc = -1 :=
  setCell_get_same _ oi oc (-1) ho

theorem applyJump_get_mid (b : PegBoard) (oi oc mi mc ti tc : ℤ)
    (hm : inRange mi mc)
    (hom : ¬(oi = mi ∧ oc = mc)) (hmt : ¬(mi = ti ∧ mc = tc)) :
    getCell (applyJump b oi oc mi mc ti tc) mi mc = -1 := by
  unfold applyJump
  rw [setCell_get_ne _ _ _ _ _ _ (by tauto), setCell_get_ne _ _ _ _ _ _ (by tauto),
    setCell_get_same _ _ _ _ hm]

theorem applyJump_get_tgt (b : PegBoard) (oi oc mi mc ti tc : ℤ)
    (ht : inRange ti tc)
    (hom : ¬(oi = mi ∧ oc = mc)) (hot : ¬(oi = ti ∧ oc = tc)) :
    getCell (applyJump b oi oc mi mc ti tc) ti tc = getCell b oi oc := by
  unfold applyJump
  rw [setCell_get_ne _ _ _ _ _ _ (by tauto), setCell_get_same _ _ _ _ ht,
    setCell_get_ne _ _ _ _ _ _ (by tauto)]

theorem applyJump_get_other (b : PegBoard) (oi oc mi mc ti tc i c : ℤ)
    (h1 : ¬(i = oi ∧ c = oc)) (h2 : ¬(i = mi ∧ c = mc)) (h3 : ¬(i = ti ∧ c = tc)) :
    getCell (applyJump b oi oc mi mc ti tc) i c = getCell b i c := by
  unfold applyJump
  rw [setCell_get_ne _ _ _ _ _ _ h1, setCell_get_ne _ _ _ _ _ _ h3,
    setCell_get_ne _ _ _ _ _ _ h2]

/-- Undo is the exact inverse of a jump, three distinct in-range cells with
an `EMPTY` target and the jumped value recorded in the move. -/
theorem jump_roundtrip (b : PegBoard) (oi oc mi mc ti tc j : ℤ)
    (ho : inRange oi oc) (hm : inRange mi mc) (ht : inRange ti tc)
    (hom : ¬(oi = mi ∧ oc = mc)) (hot : ¬(oi = ti ∧ oc = tc))
    (hmt : ¬(mi = ti ∧ mc = tc))
    (hbt : getCell b ti tc = -1) (hj : j = getCell b mi mc) :
    undoJump (applyJump b oi oc mi mc ti tc) oi oc mi mc ti tc j = b := by
  apply board_ext
  intro i c
  unfold undoJump
  by_cases h2 : i = mi ∧ c = mc
  · obtain ⟨rfl, rfl⟩ := h2
    rw [setCell_get_same _ _ _ _ hm, hj]
  rw [setCell_get_ne _ _ _ _ _ _ h2]
  by_cases h3 : i = ti ∧ c = tc
  · obtain ⟨rfl, rfl⟩ := h3
    rw [setCell_get_same _ _ _ _ ht, hbt]
  rw [setCell_get_ne _ _ _ _ _ _ h3]
  by_cases h1 : i = oi ∧ c = oc
  · obtain ⟨rfl, rfl⟩ := h1
    rw [setCell_get_same _ _ _ _ ho]
    rw [applyJump_get_tgt _ _ _ _ _ _ _ ht hom hot]
  · rw [setCell_get_ne _ _ _ _ _ _ h1]
    exact applyJump_get_other b oi oc mi mc ti tc i c h1 h2 h3

theorem mem_cellList {i c : ℤ} :
    (i, c) ∈ cellList ↔ inRange i c := by
  unfold cellList inRange
  simp only [List.mem_flatMap, List.mem_map, List.mem_range, Prod.mk.injEq]
  constructor
  · rintro ⟨a, ha, bb, hb, h1, h2⟩
    omega
  · rintro ⟨h1, h2, h3, h4⟩
    exact ⟨i.toNat, by omega, c.toNat, by omega, by omega, by omega⟩

theorem mem_cellMovesBrit {b : PegBoard} {i c : ℤ} {m : PegMove} :
    m ∈ cellMovesBrit b i c ↔ 0 < getCell b i c ∧
      ((wCond b i c ∧ m = wMove b i c) ∨
       (¬wCond b i c ∧ aCond b i c ∧ m = aMove b i c) ∨
       (¬wCond b i c ∧ ¬aCond b i c ∧ sCond b i c ∧ m = sMove b i c) ∨
       (¬wCond b i c ∧ ¬aCond b i c ∧ ¬sCond b i c ∧ dCond b i c ∧ m = dMove b i c)) := by
  unfold cellMovesBrit
  split_ifs with h0 h1 h2 h3 h4 <;> simp_all

theorem mem_cellMovesEuro {b : PegBoard} {i c : ℤ} {m : PegMove} :
    m ∈ cellMovesEuro b i c ↔ 0 < getCell b i c ∧
      ((wCond b i c ∧ m = wMove b i c) ∨ (aCond b i c ∧ m = aMove b i c) ∨
       (sCond b i c ∧ m = sMove b i c) ∨ (dCond b i c ∧ m = dMove b i c)) := by
  unfold cellMovesEuro
  by_cases h0 : 0 < getCell b i c
  · simp only [h0, if_true, true_and, List.mem_append]
    by_cases h1 : wCond b i c <;> by_cases h2 : aCond b i c <;>
      by_cases h3 : sCond b i c <;> by_cases h4 : dCond b i c <;> simp_all <;> tauto
  · simp [h0]

theorem mem_validsBrit {b : PegBoard} {m : PegMove} :
    m ∈ getValidMovesBrit b ↔ ∃ i c : ℤ, inRange i c ∧ m ∈ cellMovesBrit b i c := by
  unfold getValidMovesBrit
  simp only [List.mem_flatMap, Prod.exists]
  constructor
  · rintro ⟨i, c, hp, hm⟩
    exact ⟨i, c, mem_cellList.mp hp, hm⟩
  · rintro ⟨i, c, hr, hm⟩
    exact ⟨i, c, mem_cellList.mpr hr, hm⟩

theorem mem_validsEuro {b : PegBoard} {m : PegMove} :
    m ∈ getValidMovesEuro b ↔ ∃ i c : ℤ, inRange i c ∧ m ∈ cellMovesEuro b i c := by
  unfold getValidMovesEuro
  simp only [List.mem_flatMap, Prod.exists]
  constructor
  · rintro ⟨i, c, hp, hm⟩
    exact ⟨i, c, mem_cellList.mp hp, hm⟩
  · rintro ⟨i, c, hr, hm⟩
    exact ⟨i, c, mem_cellList.mpr hr, hm⟩

/-- On a well-formed board, a negative cell holds exactly `EMPTY = -1`. -/
theorem getCell_neg_eq {b : PegBoard} (hwf : WellFormed b) {i c : ℤ}
    (h : getCell b i c < 0) : getCell b i c = -1 := by
  unfold getCell at h ⊢
  by_cases hr : inRange i c
  · simp only [hr, dif_pos] at h ⊢
    exact hwf _ h
  · simp [hr] at h

theorem undo_make_w (b : PegBoard) (i c : ℤ) (hwf : WellFormed b)
    (hr : inRange i c) (hw : wCond b i c) :
    undoBoard (applyBoard b (wMove b i c)) (shiftMove (wMove b i c)) = b := by
  obtain ⟨hi, hcell2, hcell1⟩ := hw
  obtain ⟨h1, h2, h3, h4⟩ := hr
  have e1 : shiftMove (wMove b i c) = ⟨i - 2, c, 'w', getCell b (i - 1) c⟩ := rfl
  rw [e1, show wMove b i c = ⟨i, c, 'w', getCell b (i - 1) c⟩ from rfl,
    applyBoard_w, undoBoard_w]
  rw [show i - 2 + 2 = i from by ring, show i - 2 + 1 = i - 1 from by ring]
  exact jump_roundtrip b i c (i - 1) c (i - 2) c _ ⟨h1, h2, h3, h4⟩
    ⟨by omega, by omega, h3, h4⟩ ⟨by omega, by omega, h3, h4⟩
    (by omega) (by omega) (by omega) (getCell_neg_eq hwf hcell2) rfl

theorem undo_make_a (b : PegBoard) (i c : ℤ) (hwf : WellFormed b)
    (hr : inRange i c) (ha : aCond b i c) :
    undoBoard (applyBoard b (aMove b i c)) (shiftMove (aMove b i c)) = b := by
  obtain ⟨hc, hcell2, hcell1⟩ := ha
  obtain ⟨h1, h2, h3, h4⟩ := hr
  have e1 : shiftMove (aMove b i c) = ⟨i, c - 2, 'a', getCell b i (c - 1)⟩ := rfl
  rw [e1, show aMove b i c = ⟨i, c, 'a', getCell b i (c - 1)⟩ from rfl,
    applyBoard_a, undoBoard_a]
  rw [show c - 2 + 2 = c from by ring, show c - 2 + 1 = c - 1 from by ring]
  exact jump_roundtrip b i c i (c - 1) i (c - 2) _ ⟨h1, h2, h3, h4⟩
    ⟨h1, h2, by omega, by omega⟩ ⟨h1, h2, by omega, by omega⟩
    (by omega) (by omega) (by omega) (getCell_neg_eq hwf hcell2) rfl

theorem undo_make_s (b : PegBoard) (i c : ℤ) (hwf : WellFormed b)
    (hr : inRange i c) (hs : sCond b i c) :
    undoBoard (applyBoard b (sMove b i c)) (shiftMove (sMove b i c)) = b := by
  obtain ⟨hi, hcell2, hcell1⟩ := hs
  obtain ⟨h1, h2, h3, h4⟩ := hr
  have hiN : i < 5 := by
    have : N - 2 = (5 : ℤ) := by norm_num [N]
    omega
  have e1 : shiftMove (sMove b i c) = ⟨i + 2, c, 's', getCell b (i + 1) c⟩ := rfl
  rw [e1, show sMove b i c = ⟨i, c, 's', getCell b (i + 1) c⟩ from rfl,
    applyBoard_s, undoBoard_s]
  rw [show i + 2 - 2 = i from by ring, show i + 2 - 1 = i + 1 from by ring]
  exact jump_roundtrip b i c (i + 1) c (i + 2) c _ ⟨h1, h2, h3, h4⟩
    ⟨by omega, by omega, h3, h4⟩ ⟨by omega, by omega, h3, h4⟩
    (by omega) (by omega) (by omega) (getCell_neg_eq hwf hcell2) rfl

theorem undo_make_d (b : PegBoard) (i c : ℤ) (hwf : WellFormed b)
    (hr : inRange i c) (hd : dCond b i c) :
    undoBoard (applyBoard b (dMove b i c)) (shiftMove (dMove b i c)) = b := by
  obtain ⟨hc, hcell2, hcell1⟩ := hd
  obtain ⟨h1, h2, h3, h4⟩ := hr
  have hcN : c < 5 := by
    have : N - 2 = (5 : ℤ) := by norm_num [N]
    omega
  have e1 : shiftMove (dMove b i c) = ⟨i, c + 2, 'd', getCell b i (c + 1)⟩ := rfl
  rw [e1, show dMove b i c = ⟨i, c, 'd', getCell b i (c + 1)⟩ from rfl,
    applyBoard_d, undoBoard_d]
  rw [show c + 2 - 2 = c from by ring, show c + 2 - 1 = c + 1 from by ring]
  exact jump_roundtrip b i c i (c + 1) i (c + 2) _ ⟨h1, h2, h3, h4⟩
    ⟨h1, h2, by omega, by omega⟩ ⟨h1, h2, by omega, by omega⟩
    (by omega) (by omega) (by omega) (getCell_neg_eq hwf hcell2) rfl

/-- Board-level undo exactness for any move of either enumerator, given its
cell and guard. -/
theorem undoBoard_applyBoard_cell {b : PegBoard} {i c : ℤ} {m : PegMove}
    (hwf : WellFormed b) (hr : inRange i c)
    (hm : (wCond b i c ∧ m = wMove b i c) ∨ (aCond b i c ∧ m = aMove b i c) ∨
      (sCond b i c ∧ m = sMove b i c) ∨ (dCond b i c ∧ m = dMove b i c)) :
    undoBoard (applyBoard b m) (shiftMove m) = b := by
  rcases hm with ⟨h, rfl⟩ | ⟨h, rfl⟩ | ⟨h, rfl⟩ | ⟨h, rfl⟩
  · exact undo_make_w b i c hwf hr h
  · exact undo_make_a b i c hwf hr h
  · exact undo_make_s b i c hwf hr h
  · exact undo_make_d b i c hwf hr h

/-- Direction-tagged description of a British move, dropping the `elif`
ordering information. -/
theorem mem_validsBrit_cases {b : PegBoard} {m : PegMove}
    (hm : m ∈ getValidMovesBrit b) :
    ∃ i c : ℤ, inRange i c ∧ 0 < getCell b i c ∧
      ((wCond b i c ∧ m = wMove b i c) ∨ (aCond b i c ∧ m = aMove b i c) ∨
       (sCond b i c ∧ m = sMove b i c) ∨ (dCond b i c ∧ m = dMove b i c)) := by
  obtain ⟨i, c, hr, hcm⟩ := mem_validsBrit.mp hm
  obtain ⟨hp, hcase⟩ := mem_cellMovesBrit.mp hcm
  exact ⟨i, c, hr, hp, by tauto⟩

/-- Direction-tagged description of a European move. -/
theorem mem_validsEuro_cases {b : PegBoard} {m : PegMove}
    (hm : m ∈ getValidMovesEuro b) :
    ∃ i c : ℤ, inRange i c ∧ 0 < getCell b i c ∧
      ((wCond b i c ∧ m = wMove b i c) ∨ (aCond b i c ∧ m = aMove b i c) ∨
       (sCond b i c ∧ m = sMove b i c) ∨ (dCond b i c ∧ m = dMove b i c)) := by
  obtain ⟨i, c, hr, hcm⟩ := mem_validsEuro.mp hm
  obtain ⟨hp, hcase⟩ := mem_cellMovesEuro.mp hcm
  exact ⟨i, c, hr, hp, by tauto⟩

/-- Undo exactness at board level for British moves. -/
theorem undoBoard_applyBoard {b : PegBoard} {m : PegMove} (hwf : WellFormed b)
    (hm : m ∈ getValidMovesBrit b) :
    undoBoard (applyBoard b m) (shiftMove m) = b := by
  obtain ⟨i, c, hr, _, hcase⟩ := mem_validsBrit_cases hm
  exact undoBoard_applyBoard_cell hwf hr hcase

/-- State-level undo exactness: `make_move` then `undo_move` restores both
the board and the move stack. -/
theorem undo_make {s : PegState} {m : PegMove} (hwf : WellFormed s.board)
    (hm : m ∈ getValidMovesBrit s.board) :
    undoMove (makeMove s m) = s := by
  obtain ⟨b, ms⟩ := s
  unfold makeMove undoMove
  simp only [List.getLast?_concat, List.dropLast_concat]
  exact congrArg (fun x => PegState.mk x ms) (undoBoard_applyBoard hwf hm)

/-- Uniform decomposition of an enumerated move into its origin, jumped and
target cells, covering both enumerators. -/
theorem applyBoard_jump_decomp {b : PegBoard} {m : PegMove} {i c : ℤ}
    (hr : inRange i c) (hp : 0 < getCell b i c)
    (hcase : (wCond b i c ∧ m = wMove b i c) ∨ (aCond b i c ∧ m = aMove b i c) ∨
      (sCond b i c ∧ m = sMove b i c) ∨ (dCond b i c ∧ m = dMove b i c)) :
    ∃ oi oc mi mc ti tc : ℤ, inRange oi oc ∧ inRange mi mc ∧ inRange ti tc ∧
      ¬(oi = mi ∧ oc = mc) ∧ ¬(oi = ti ∧ oc = tc) ∧ ¬(mi = ti ∧ mc = tc) ∧
      0 < getCell b oi oc ∧ 0 < getCell b mi mc ∧ getCell b ti tc < 0 ∧
      applyBoard b m = applyJump b oi oc mi mc ti tc := by
  obtain ⟨h1, h2, h3, h4⟩ := hr
  have hN : N - 2 = (5 : ℤ) := by norm_num [N]
  rcases hcase with ⟨⟨hg, hc2, hc1⟩, rfl⟩ | ⟨⟨hg, hc2, hc1⟩, rfl⟩ |
    ⟨⟨hg, hc2, hc1⟩, rfl⟩ | ⟨⟨hg, hc2, hc1⟩, rfl⟩
  · exact ⟨i, c, i - 1, c, i - 2, c, ⟨h1, h2, h3, h4⟩, ⟨by omega, by omega, h3, h4⟩,
      ⟨by omega, by omega, h3, h4⟩, by omega, by omega, by omega, hp, hc1, hc2,
      applyBoard_w b i c _⟩
  · exact ⟨i, c, i, c - 1, i, c - 2, ⟨h1, h2, h3, h4⟩, ⟨h1, h2, by omega, by omega⟩,
      ⟨h1, h2, by omega, by omega⟩, by omega, by omega, by omega, hp, hc1, hc2,
      applyBoard_a b i c _⟩
  · exact ⟨i, c, i + 1, c, i + 2, c, ⟨h1, h2, h3, h4⟩, ⟨by omega, by omega, h3, h4⟩,
      ⟨by omega, by omega, h3, h4⟩, by omega, by omega, by omega, hp, hc1, hc2,
      applyBoard_s b i c _⟩
  · exact ⟨i, c, i, c + 1, i, c + 2, ⟨h1, h2, h3, h4⟩, ⟨h1, h2, by omega, by omega⟩,
      ⟨h1, h2, by omega, by omega⟩, by omega, by omega, by omega, hp, hc1, hc2,
      applyBoard_d b i c _⟩

theorem pegCount_update (b : PegBoard) (p : Fin 7 × Fin 7) (v : ℤ) :
    pegCount (Function.update b p v) + (if 0 < b p then 1 else 0) =
      pegCount b + (if 0 < v then 1 else 0) := by
  unfold pegCount
  rw [Finset.card_filter, Finset.card_filter]
  have h1 : (∑ q ∈ Finset.univ, if 0 < Function.update b p v q then 1 else 0) =
      (if 0 < v then 1 else 0) +
        ∑ q ∈ Finset.univ.erase p, (if 0 < b q then 1 else 0) := by
    rw [← Finset.add_sum_erase _ _ (Finset.mem_univ p), Function.update_same]
    congr 1
    refine Finset.sum_congr rfl fun q hq => ?_
    rw [Function.update_noteq (Finset.ne_of_mem_erase hq)]
  have h2 : (∑ q ∈ Finset.univ, if 0 < b q then 1 else 0) =
      (if 0 < b p then 1 else 0) +
        ∑ q ∈ Finset.univ.erase p, (if 0 < b q then 1 else 0) :=
    (Finset.add_sum_erase _ _ (Finset.mem_univ p)).symm
  omega

theorem setCell_eq_update (b : PegBoard) (i c v : ℤ) (h : inRange i c) :
    setCell b i c v = Function.update b (toIdx i c h) v := by
  simp [setCell, h]

theorem pegCount_setCell (b : PegBoard) (i c v : ℤ) (h : inRange i c) :
    pegCount (setCell b i c v) + (if 0 < getCell b i c then 1 else 0) =
      pegCount b + (if 0 < v then 1 else 0) := by
  rw [setCell_eq_update b i c v h, getCell_idx b i c h]
  exact pegCount_update b (toIdx i c h) v

/-- A jump removes exactly one peg. -/
theorem pegCount_applyJump {b : PegBoard} {oi oc mi mc ti tc : ℤ}
    (ho : inRange oi oc) (hm : inRange mi mc) (ht : inRange ti tc)
    (hom : ¬(oi = mi ∧ oc = mc)) (hot : ¬(oi = ti ∧ oc = tc))
    (hmt : ¬(mi = ti ∧ mc = tc))
    (hpo : 0 < getCell b oi oc) (hpm : 0 < getCell b mi mc)
    (hnt : getCell b ti tc < 0) :
    pegCount (applyJump b oi oc mi mc ti tc) + 1 = pegCount b := by
  simp only [applyJump]
  have ev : getCell (setCell b mi mc (-1)) oi oc = getCell b oi oc :=
    setCell_get_ne _ _ _ _ _ _ (by tauto)
  rw [ev]
  have e1 := pegCount_setCell b mi mc (-1) hm
  rw [if_pos hpm, if_neg (by omega : ¬(0 : ℤ) < -1)] at e1
  have e2 := pegCount_setCell (setCell b mi mc (-1)) ti tc (getCell b oi oc) ht
  rw [if_pos hpo,
    setCell_get_ne _ _ _ _ _ _ (fun hh => hmt ⟨hh.1.symm, hh.2.symm⟩),
    if_neg (by omega : ¬(0 : ℤ) < getCell b ti tc)] at e2
  have e3 := pegCount_setCell
    (setCell (setCell b mi mc (-1)) ti tc (getCell b oi oc)) oi oc (-1) ho
  rw [setCell_get_ne _ _ _ _ _ _ (by tauto), ev,
    if_pos hpo, if_neg (by omega : ¬(0 : ℤ) < -1)] at e3
  omega

/-- Well-formedness stated through `getCell`. -/
theorem wellFormed_iff_getCell {b : PegBoard} :
    WellFormed b ↔ ∀ i c : ℤ, getCell b i c < 0 → getCell b i c = -1 := by
  constructor
  · intro hwf i c
    exact getCell_neg_eq hwf
  · intro h p hneg
    have hp := h (p.1 : ℤ) (p.2 : ℤ)
    rw [getCell_of_fin] at hp
    exact hp hneg

/-- A jump keeps the board well formed: it writes only `-1` and a peg value. -/
theorem wellFormed_applyJump {b : PegBoard} {oi oc mi mc ti tc : ℤ}
    (ho : inRange oi oc) (hm : inRange mi mc) (ht : inRange ti tc)
    (hom : ¬(oi = mi ∧ oc = mc)) (hot : ¬(oi = ti ∧ oc = tc))
    (hmt : ¬(mi = ti ∧ mc = tc))
    (hpo : 0 < getCell b oi oc) (hwf : WellFormed b) :
    WellFormed (applyJump b oi oc mi mc ti tc) := by
  rw [wellFormed_iff_getCell]
  intro i c hneg
  by_cases h1 : i = oi ∧ c = oc
  · obtain ⟨rfl, rfl⟩ := h1
    rw [applyJump_get_orig b _ _ _ _ _ _ ho]
  by_cases h2 : i = mi ∧ c = mc
  · obtain ⟨rfl, rfl⟩ := h2
    rw [applyJump_get_mid b _ _ _ _ _ _ hm hom hmt]
  by_cases h3 : i = ti ∧ c = tc
  · obtain ⟨rfl, rfl⟩ := h3
    rw [applyJump_get_tgt b _ _ _ _ _ _ ht hom hot] at hneg
    omega
  · rw [applyJump_get_other b _ _ _ _ _ _ i c h1 h2 h3] at hneg ⊢
    exact getCell_neg_eq hwf hneg

/-- Boards with the same void cells (zero pattern). -/
def ZeroEq (b1 b2 : PegBoard) : Prop :=
  ∀ i c : ℤ, getCell b1 i c = 0 ↔ getCell b2 i c = 0

/-- A jump never changes the zero (void) pattern. -/
theorem zeroEq_applyJump {b : PegBoard} {oi oc mi mc ti tc : ℤ}
    (ho : inRange oi oc) (hm : inRange mi mc) (ht : inRange ti tc)
    (hom : ¬(oi = mi ∧ oc = mc)) (hot : ¬(oi = ti ∧ oc = tc))
    (hmt : ¬(mi = ti ∧ mc = tc))
    (hpo : 0 < getCell b oi oc) (hpm : 0 < getCell b mi mc)
    (hnt : getCell b ti tc < 0) :
    ZeroEq (applyJump b oi oc mi mc ti tc) b := by
  intro i c
  by_cases h1 : i = oi ∧ c = oc
  · obtain ⟨rfl, rfl⟩ := h1
    rw [applyJump_get_orig b _ _ _ _ _ _ ho]
    omega
  by_cases h2 : i = mi ∧ c = mc
  · obtain ⟨rfl, rfl⟩ := h2
    rw [applyJump_get_mid b _ _ _ _ _ _ hm hom hmt]
    omega
  by_cases h3 : i = ti ∧ c = tc
  · obtain ⟨rfl, rfl⟩ := h3
    rw [applyJump_get_tgt b _ _ _ _ _ _ ht hom hot]
    omega
  · rw [applyJump_get_other b _ _ _ _ _ _ i c h1 h2 h3]

/-- Applying a British move removes exactly one peg. -/
theorem pegCount_apply_brit {b : PegBoard} {m : PegMove}
    (hm : m ∈ getValidMovesBrit b) :
    pegCount (applyBoard b m) + 1 = pegCount b := by
  obtain ⟨i, c, hr, hp, hcase⟩ := mem_validsBrit_cases hm
  obtain ⟨oi, oc, mi, mc, ti, tc, ho, hmr, htr, d1, d2, d3, s1, s2, s3, he⟩ :=
    applyBoard_jump_decomp hr hp hcase
  rw [he]
  exact pegCount_applyJump ho hmr htr d1 d2 d3 s1 s2 s3

/-- Applying a British move preserves well-formedness. -/
theorem wellFormed_apply_brit {b : PegBoard} {m : PegMove} (hwf : WellFormed b)
    (hm : m ∈ getValidMovesBrit b) : WellFormed (applyBoard b m) := by
  obtain ⟨i, c, hr, hp, hcase⟩ := mem_validsBrit_cases hm
  obtain ⟨oi, oc, mi, mc, ti, tc, ho, hmr, htr, d1, d2, d3, s1, s2, s3, he⟩ :=
    applyBoard_jump_decomp hr hp hcase
  rw [he]
  exact wellFormed_applyJump ho hmr htr d1 d2 d3 s1 hwf

/-- Applying a British move preserves the void pattern. -/
theorem zeroEq_apply_brit {b : PegBoard} {m : PegMove}
    (hm : m ∈ getValidMovesBrit b) : ZeroEq (applyBoard b m) b := by
  obtain ⟨i, c, hr, hp, hcase⟩ := mem_validsBrit_cases hm
  obtain ⟨oi, oc, mi, mc, ti, tc, ho, hmr, htr, d1, d2, d3, s1, s2, s3, he⟩ :=
    applyBoard_jump_decomp hr hp hcase
  rw [he]
  exact zeroEq_applyJump ho hmr htr d1 d2 d3 s1 s2 s3

/-- An enumerated move needs a peg, so the board has at least one. -/
theorem pegCount_pos_of_mem {b : PegBoard} {m : PegMove}
    (hm : m ∈ getValidMovesBrit b) : 0 < pegCount b := by
  have h := pegCount_apply_brit hm
  omega

/-- Frame property of `PegSolitaire.solve`: a failing call returns the state
it received. -/
theorem solveS_frame : ∀ (fuel : ℕ) (s : PegState), WellFormed s.board →
    (solveS fuel s).1 = false → (solveS fuel s).2 = s := by
  intro fuel
  induction fuel with
  | zero => intro s _ _; rfl
  | succ fuel ih =>
    have loop : ∀ (ms : List PegMove) (s : PegState), WellFormed s.board →
        (∀ m ∈ ms, m ∈ getValidMovesBrit s.board) →
        (solveLoopF (solveS fuel) s ms).1 = false →
        (solveLoopF (solveS fuel) s ms).2 = s := by
      intro ms
      induction ms with
      | nil => intro s _ _ _; rfl
      | cons m rest ihm =>
        intro s hwf hms hfalse
        by_cases hr : (solveS fuel (makeMove s m)).1 = true
        · simp [solveLoopF, hr] at hfalse
        · have hrf : (solveS fuel (makeMove s m)).1 = false := by
            revert hr; cases (solveS fuel (makeMove s m)).1 <;> simp
          have hmv : m ∈ getValidMovesBrit s.board := hms m (List.mem_cons_self m rest)
          have hwf1 : WellFormed (makeMove s m).board := wellFormed_apply_brit hwf hmv
          have hrest := ih (makeMove s m) hwf1 hrf
          have hundo : undoMove (solveS fuel (makeMove s m)).2 = s := by
            rw [hrest]; exact undo_make hwf hmv
          simp only [solveLoopF, if_neg hr] at hfalse ⊢
          rw [hundo] at hfalse ⊢
          exact ihm s hwf (fun x hx => hms x (List.mem_cons_of_mem m hx)) hfalse
    intro s hwf hfalse
    by_cases hsol : isSolvedBrit s.board = true
    · simp [solveS, hsol] at hfalse
    · have he : solveS (fuel + 1) s = solveLoopF (solveS fuel) s (getValidMovesBrit s.board) := by
        simp [solveS, hsol]
      rw [he] at hfalse ⊢
      exact loop _ s hwf (fun x hx => hx) hfalse

/-- Frame property of `PegSolitaire.dfs`: a failing call returns the board
state it received (the visited set may of course grow). -/
theorem dfsS_frame : ∀ (fuel : ℕ) (s : PegState) (vis : List ℕ),
    WellFormed s.board →
    (dfsS fuel s vis).1 = false → (dfsS fuel s vis).2.1 = s := by
  intro fuel
  induction fuel with
  | zero => intro s vis _ _; rfl
  | succ fuel ih =>
    have loop : ∀ (ms : List PegMove) (s : PegState) (vis : List ℕ),
        WellFormed s.board →
        (∀ m ∈ ms, m ∈ getValidMovesBrit s.board) →
        (dfsLoopF (dfsS fuel) s ms vis).1 = false →
        (dfsLoopF (dfsS fuel) s ms vis).2.1 = s := by
      intro ms
      induction ms with
      | nil => intro s vis _ _ _; rfl
      | cons m rest ihm =>
        intro s vis hwf hms hfalse
        by_cases hr : (dfsS fuel (makeMove s m) vis).1 = true
        · simp [dfsLoopF, hr] at hfalse
        · have hrf : (dfsS fuel (makeMove s m) vis).1 = false := by
            revert hr; cases (dfsS fuel (makeMove s m) vis).1 <;> simp
          have hmv : m ∈ getValidMovesBrit s.board := hms m (List.mem_cons_self m rest)
          have hwf1 : WellFormed (makeMove s m).board := wellFormed_apply_brit hwf hmv
          have hrest := ih (makeMove s m) vis hwf1 hrf
          have hundo : undoMove (dfsS fuel (makeMove s m) vis).2.1 = s := by
            rw [hrest]; exact undo_make hwf hmv
          simp only [dfsLoopF, if_neg hr] at hfalse ⊢
          rw [hundo] at hfalse ⊢
          exact ihm s _ hwf (fun x hx => hms x (List.mem_cons_of_mem m hx)) hfalse
    intro s vis hwf hfalse
    by_cases hv : encodeBoard s.board ∈ vis
    · simp [dfsS, hv]
    by_cases hsol : isSolvedBrit s.board = true
    · simp [dfsS, hv, hsol] at hfalse
    · have he : dfsS (fuel + 1) s vis =
          dfsLoopF (dfsS fuel) s (getValidMovesBrit s.board) (encodeBoard s.board :: vis) := by
        simp [dfsS, hv, hsol]
      rw [he] at hfalse ⊢
      exact loop _ s _ hwf (fun x hx => hx) hfalse

/-- Any fuel above the peg count gives the same result: the recursion depth
of `solve` is bounded by the number of pegs, so the search terminates. -/
theorem solveS_fuel_irrelevant : ∀ (n : ℕ) (s : PegState) (f1 f2 : ℕ),
    WellFormed s.board → pegCount s.board = n → n < f1 → n < f2 →
    solveS f1 s = solveS f2 s := by
  intro n
  induction n using Nat.strong_induction_on with
  | _ n ihn =>
    intro s f1 f2 hwf hpc hf1 hf2
    obtain ⟨a, rfl⟩ : ∃ a, f1 = a + 1 := ⟨f1 - 1, by omega⟩
    obtain ⟨bb, rfl⟩ : ∃ bb, f2 = bb + 1 := ⟨f2 - 1, by omega⟩
    have loop : ∀ (ms : List PegMove) (s : PegState), WellFormed s.board →
        pegCount s.board = n →
        (∀ m ∈ ms, m ∈ getValidMovesBrit s.board) →
        solveLoopF (solveS a) s ms = solveLoopF (solveS bb) s ms := by
      intro ms
      induction ms with
      | nil => intro s _ _ _; rfl
      | cons m rest ihm =>
        intro s hwf hpc hms
        have hmv : m ∈ getValidMovesBrit s.board := hms m (List.mem_cons_self m rest)
        have hpos : 0 < pegCount s.board := pegCount_pos_of_mem hmv
        have hchild : pegCount (makeMove s m).board + 1 = n := by
          rw [← hpc]; exact pegCount_apply_brit hmv
        have hwf1 : WellFormed (makeMove s m).board := wellFormed_apply_brit hwf hmv
        have hce : solveS a (makeMove s m) = solveS bb (makeMove s m) :=
          ihn (pegCount (makeMove s m).board) (by omega) (makeMove s m) a bb
            hwf1 rfl (by omega) (by omega)
        simp only [solveLoopF]
        rw [hce]
        by_cases hr : (solveS bb (makeMove s m)).1 = true
        · rw [if_pos hr, if_pos hr]
        · have hrf : (solveS bb (makeMove s m)).1 = false := by
            revert hr; cases (solveS bb (makeMove s m)).1 <;> simp
          rw [if_neg hr, if_neg hr]
          have hundo : undoMove (solveS bb (makeMove s m)).2 = s := by
            rw [solveS_frame bb (makeMove s m) hwf1 hrf]
            exact undo_make hwf hmv
          rw [hundo]
          exact ihm s hwf hpc (fun x hx => hms x (List.mem_cons_of_mem m hx))
    by_cases hsol : isSolvedBrit s.board = true
    · simp [solveS, hsol]
    · have h1 : solveS (a + 1) s = solveLoopF (solveS a) s (getValidMovesBrit s.board) := by
        simp [solveS, hsol]
      have h2 : solveS (bb + 1) s = solveLoopF (solveS bb) s (getValidMovesBrit s.board) := by
        simp [solveS, hsol]
      rw [h1, h2]
      exact loop _ s hwf hpc (fun x hx => hx)

/-!
Sudoku (`references/sudoku/solver.py`): a 9x9 grid of characters, embedded
as `Fin 9 → Fin 9 → ℕ` with 0 standing for the empty character and 1..9 for
the digit characters.  `solveSudoku` keeps the board plus one used-digit set
per row, column and box (`rows`, `cols`, `boxes`), fills the list `empties`
by a row-major scan (`find_empties`), and runs `dfs_rec` over the indices of
that list.
-/

/-- A 9x9 sudoku board; 0 is the empty cell. -/
abbrev SBoard := Fin 9 → Fin 9 → ℕ

/-- Box index `(r // 3) * 3 + (c // 3)`. -/
def boxIdx (r c : Fin 9) : Fin 9 := ⟨r.1 / 3 * 3 + c.1 / 3, by omega⟩

/-- The mutable state of the sudoku solver: the board and the three
used-digit set families. -/
structure SudokuState where
  board : SBoard
  rows : Fin 9 → Finset ℕ
  cols : Fin 9 → Finset ℕ
  boxes : Fin 9 → Finset ℕ

/-- Row-major enumeration of the 81 cells. -/
def cellList9 : List (Fin 9 × Fin 9) :=
  (List.finRange 9).flatMap fun i => (List.finRange 9).map fun j => (i, j)

/-- One step of the `find_empties` scan: an empty cell is appended to
`empties`; a filled cell has its value added to the row, column and box
sets. -/
def findEmptiesStep (p : SudokuState × List (Fin 9 × Fin 9))
    (ij : Fin 9 × Fin 9) : SudokuState × List (Fin 9 × Fin 9) :=
  let s := p.1
  let v := s.board ij.1 ij.2
  if v = 0 then (s, p.2 ++ [ij])
  else
    ({ s with
        rows := Function.update s.rows ij.1 (insert v (s.rows ij.1)),
        cols := Function.update s.cols ij.2 (insert v (s.cols ij.2)),
        boxes := Function.update s.boxes (boxIdx ij.1 ij.2)
          (insert v (s.boxes (boxIdx ij.1 ij.2))) }, p.2)

/-- `find_empties` (solver.py lines 54-66): scan the board row-major,
collecting the empty cells and populating the used-digit sets. -/
def findEmpties (b : SBoard) : SudokuState × List (Fin 9 × Fin 9) :=
  cellList9.foldl findEmptiesStep
    ({ board := b, rows := fun _ => ∅, cols := fun _ => ∅, boxes := fun _ => ∅ }, [])

/-- `validMove` (solver.py lines 69-76): the digits of "123456789" not used
in the row, the column or the box of the cell. -/
def validMove (s : SudokuState) (rc : Fin 9 × Fin 9) : List ℕ :=
  [1, 2, 3, 4, 5, 6, 7, 8, 9].filter fun d =>
    decide (d ∉ s.rows rc.1 ∧ d ∉ s.cols rc.2 ∧ d ∉ s.boxes (boxIdx rc.1 rc.2))

/-- The `place` half of the `dfs_rec` loop body: write the digit and add it
to the three sets. -/
def place (s : SudokuState) (r c : Fin 9) (d : ℕ) : SudokuState :=
  { board := fun i j => if i = r ∧ j = c then d else s.board i j,
    rows := Function.update s.rows r (insert d (s.rows r)),
    cols := Function.update s.cols c (insert d (s.cols c)),
    boxes := Function.update s.boxes (boxIdx r c) (insert d (s.boxes (boxIdx r c))) }

/-- The `undo` half of the `dfs_rec` loop body: clear the cell and remove
the digit from the three sets. -/
def unplace (s : SudokuState) (r c : Fin 9) (d : ℕ) : SudokuState :=
  { board := fun i j => if i = r ∧ j = c then 0 else s.board i j,
    rows := Function.update s.rows r ((s.rows r).erase d),
    cols := Function.update s.cols c ((s.cols c).erase d),
    boxes := Function.update s.boxes (boxIdx r c) ((s.boxes (boxIdx r c)).erase d) }

/-- The `for move in validMove(...)` loop of `dfs_rec`, parameterised by the
recursion on the remaining empties. -/
def sudokuLoopF (next : SudokuState → Bool × SudokuState) (rc : Fin 9 × Fin 9) :
    SudokuState → List ℕ → Bool × SudokuState
  | s, [] => (false, s)
  | s, d :: ds =>
    let r := next (place s rc.1 rc.2 d)
    if r.1 then (true, r.2)
    else sudokuLoopF next rc (unplace r.2 rc.1 rc.2 d) ds

/-- `dfs_rec` (solver.py lines 81-106), recursing over the suffix of
`empties` instead of the index `idx`; reaching the end of the list is the
success case `idx == len(empties)`. -/
def dfsRec : SudokuState → List (Fin 9 × Fin 9) → Bool × SudokuState
  | s, [] => (true, s)
  | s, rc :: rest =>
    if s.board rc.1 rc.2 ≠ 0 then dfsRec s rest
    else sudokuLoopF (fun s1 => dfsRec s1 rest) rc s (validMove s rc)

/-- The body of `solveSudoku`: `find_empties()` then `dfs_rec(0)`. -/
def solveSudoku (b : SBoard) : Bool × SudokuState :=
  dfsRec (findEmpties b).1 (findEmpties b).2

/-- Digits present in row `i` of the board. -/
def rowDigits (b : SBoard) (i : Fin 9) : Finset ℕ :=
  ((Finset.univ : Finset (Fin 9)).image fun j => b i j).erase 0

/-- Digits present in column `j` of the board. -/
def colDigits (b : SBoard) (j : Fin 9) : Finset ℕ :=
  ((Finset.univ : Finset (Fin 9)).image fun i => b i j).erase 0

/-- Digits present in box `k` of the board. -/
def boxDigits (b : SBoard) (k : Fin 9) : Finset ℕ :=
  (((Finset.univ : Finset (Fin 9 × Fin 9)).filter fun rc => boxIdx rc.1 rc.2 = k).image
    fun rc => b rc.1 rc.2).erase 0

/-- The incremental-constraint invariant: each tracked set equals the set of
digits actually present in its row, column or box. -/
def Consistent (s : SudokuState) : Prop :=
  (∀ i, s.rows i = rowDigits s.board i) ∧ (∀ j, s.cols j = colDigits s.board j) ∧
    (∀ k, s.boxes k = boxDigits s.board k)

/-- Number of empty cells, the recursion measure of the sudoku search. -/
def countEmpty (b : SBoard) : ℕ :=
  ((Finset.univ : Finset (Fin 9 × Fin 9)).filter fun rc => b rc.1 rc.2 = 0).card

theorem mem_cellList9 (p : Fin 9 × Fin 9) : p ∈ cellList9 := by
  unfold cellList9
  simp only [List.mem_flatMap, List.mem_map, List.mem_finRange]
  exact ⟨p.1, trivial, p.2, trivial, rfl⟩

theorem mem_validMove {s : SudokuState} {rc : Fin 9 × Fin 9} {d : ℕ} :
    d ∈ validMove s rc ↔ d ∈ [1, 2, 3, 4, 5, 6, 7, 8, 9] ∧
      d ∉ s.rows rc.1 ∧ d ∉ s.cols rc.2 ∧ d ∉ s.boxes (boxIdx rc.1 rc.2) := by
  unfold validMove
  simp [List.mem_filter]

/-- Sudoku undo exactness: placing a legal digit on an empty cell and
undoing it restores the whole state. -/
theorem unplace_place {s : SudokuState} {rc : Fin 9 × Fin 9} {d : ℕ}
    (hempty : s.board rc.1 rc.2 = 0) (hd : d ∈ validMove s rc) :
    unplace (place s rc.1 rc.2 d) rc.1 rc.2 d = s := by
  obtain ⟨_, hdr, hdc, hdb⟩ := mem_validMove.mp hd
  obtain ⟨b, rows, cols, boxes⟩ := s
  unfold place unplace
  simp only [SudokuState.mk.injEq]
  refine ⟨?_, ?_, ?_, ?_⟩
  · funext i j
    by_cases h : i = rc.1 ∧ j = rc.2
    · obtain ⟨rfl, rfl⟩ := h
      simp [hempty.symm]
    · simp [h]
  · rw [Function.update_idem, Function.update_same, Finset.erase_insert hdr,
      Function.update_eq_self]
  · rw [Function.update_idem, Function.update_same, Finset.erase_insert hdc,
      Function.update_eq_self]
  · rw [Function.update_idem, Function.update_same, Finset.erase_insert hdb,
      Function.update_eq_self]

theorem validMove_ne_zero {s : SudokuState} {rc : Fin 9 × Fin 9} {d : ℕ}
    (hd : d ∈ validMove s rc) : d ≠ 0 := by
  have h := (mem_validMove.mp hd).1
  simp at h
  omega

/-- Sudoku frame property: a failing `dfs_rec` call returns the state it
received. -/
theorem dfsRec_frame : ∀ (l : List (Fin 9 × Fin 9)) (s : SudokuState),
    (dfsRec s l).1 = false → (dfsRec s l).2 = s := by
  intro l
  induction l with
  | nil => intro s h; simp [dfsRec] at h
  | cons rc rest ih =>
    have loop : ∀ (ds : List ℕ) (s : SudokuState), s.board rc.1 rc.2 = 0 →
        (∀ d ∈ ds, d ∈ validMove s rc) →
        (sudokuLoopF (fun s1 => dfsRec s1 rest) rc s ds).1 = false →
        (sudokuLoopF (fun s1 => dfsRec s1 rest) rc s ds).2 = s := by
      intro ds
      induction ds with
      | nil => intro s _ _ _; rfl
      | cons d ds ihd =>
        intro s hempty hds hfalse
        by_cases hr : (dfsRec (place s rc.1 rc.2 d) rest).1 = true
        · simp [sudokuLoopF, hr] at hfalse
        · have hrf : (dfsRec (place s rc.1 rc.2 d) rest).1 = false := by
            revert hr; cases (dfsRec (place s rc.1 rc.2 d) rest).1 <;> simp
          have hdv : d ∈ validMove s rc := hds d (List.mem_cons_self d ds)
          have hrest := ih (place s rc.1 rc.2 d) hrf
          have hundo : unplace (dfsRec (place s rc.1 rc.2 d) rest).2 rc.1 rc.2 d = s := by
            rw [hrest]; exact unplace_place hempty hdv
          simp only [sudokuLoopF, if_neg hr] at hfalse ⊢
          rw [hundo] at hfalse ⊢
          exact ihd s hempty (fun x hx => hds x (List.mem_cons_of_mem d hx)) hfalse
    intro s hfalse
    by_cases hc : s.board rc.1 rc.2 ≠ 0
    · simp only [dfsRec, if_pos hc] at hfalse ⊢
      exact ih s hfalse
    · have hc0 : s.board rc.1 rc.2 = 0 := by omega
      simp only [dfsRec, if_neg hc] at hfalse ⊢
      exact loop _ s hc0 (fun x hx => hx) hfalse

theorem mem_rowDigits {b : SBoard} {i : Fin 9} {x : ℕ} :
    x ∈ rowDigits b i ↔ x ≠ 0 ∧ ∃ j, b i j = x := by
  simp [rowDigits, Finset.mem_erase, Finset.mem_image]

theorem mem_colDigits {b : SBoard} {j : Fin 9} {x : ℕ} :
    x ∈ colDigits b j ↔ x ≠ 0 ∧ ∃ i, b i j = x := by
  simp [colDigits, Finset.mem_erase, Finset.mem_image]

theorem mem_boxDigits {b : SBoard} {k : Fin 9} {x : ℕ} :
    x ∈ boxDigits b k ↔ x ≠ 0 ∧ ∃ rc : Fin 9 × Fin 9, boxIdx rc.1 rc.2 = k ∧ b rc.1 rc.2 = x := by
  simp only [boxDigits, Finset.mem_erase, Finset.mem_image, Finset.mem_filter,
    Finset.mem_univ, true_and]

theorem rowDigits_place_same {s : SudokuState} {r c : Fin 9} {d : ℕ}
    (hempty : s.board r c = 0) (hd : d ≠ 0) :
    rowDigits (place s r c d).board r = insert d (rowDigits s.board r) := by
  ext x
  simp only [mem_rowDigits, Finset.mem_insert, place]
  constructor
  · rintro ⟨hx, j, hj⟩
    by_cases hjc : j = c
    · subst hjc
      simp at hj
      exact Or.inl hj.symm
    · right
      refine ⟨hx, j, ?_⟩
      simpa [hjc] using hj
  · rintro (rfl | ⟨hx, j, hj⟩)
    · exact ⟨hd, c, by simp⟩
    · by_cases hjc : j = c
      · subst hjc
        rw [hempty] at hj
        exact absurd hj.symm hx
      · exact ⟨hx, j, by simpa [hjc] using hj⟩

theorem colDigits_place_same {s : SudokuState} {r c : Fin 9} {d : ℕ}
    (hempty : s.board r c = 0) (hd : d ≠ 0) :
    colDigits (place s r c d).board c = insert d (colDigits s.board c) := by
  ext x
  simp only [mem_colDigits, Finset.mem_insert, place]
  constructor
  · rintro ⟨hx, i, hi⟩
    by_cases hir : i = r
    · subst hir
      simp at hi
      exact Or.inl hi.symm
    · right
      refine ⟨hx, i, ?_⟩
      simpa [hir] using hi
  · rintro (rfl | ⟨hx, i, hi⟩)
    · exact ⟨hd, r, by simp⟩
    · by_cases hir : i = r
      · subst hir
        rw [hempty] at hi
        exact absurd hi.symm hx
      · exact ⟨hx, i, by simpa [hir] using hi⟩

theorem boxDigits_place_same {s : SudokuState} {r c : Fin 9} {d : ℕ}
    (hempty : s.board r c = 0) (hd : d ≠ 0) :
    boxDigits (place s r c d).board (boxIdx r c) =
      insert d (boxDigits s.board (boxIdx r c)) := by
  ext x
  simp only [mem_boxDigits, Finset.mem_insert, place]
  constructor
  · rintro ⟨hx, rc, hk, he⟩
    by_cases hrc : rc.1 = r ∧ rc.2 = c
    · rw [if_pos hrc] at he
      exact Or.inl he.symm
    · right
      refine ⟨hx, rc, hk, ?_⟩
      rwa [if_neg hrc] at he
  · rintro (rfl | ⟨hx, rc, hk, he⟩)
    · exact ⟨hd, (r, c), rfl, by simp⟩
    · by_cases hrc : rc.1 = r ∧ rc.2 = c
      · obtain ⟨h1, h2⟩ := hrc
        rw [h1, h2, hempty] at he
        exact absurd he.symm hx
      · exact ⟨hx, rc, hk, by rwa [if_neg hrc]⟩

theorem rowDigits_place_other {s : SudokuState} {r c : Fin 9} {d : ℕ} {i : Fin 9}
    (hir : i ≠ r) : rowDigits (place s r c d).board i = rowDigits s.board i := by
  ext x
  simp only [mem_rowDigits, place]
  have hni : ∀ j : Fin 9, ¬(i = r ∧ j = c) := fun j h => hir h.1
  constructor
  · rintro ⟨hx, j, hj⟩
    rw [if_neg (hni j)] at hj
    exact ⟨hx, j, hj⟩
  · rintro ⟨hx, j, hj⟩
    exact ⟨hx, j, by rw [if_neg (hni j)]; exact hj⟩

theorem colDigits_place_other {s : SudokuState} {r c : Fin 9} {d : ℕ} {j : Fin 9}
    (hjc : j ≠ c) : colDigits (place s r c d).board j = colDigits s.board j := by
  ext x
  simp only [mem_colDigits, place]
  have hni : ∀ i : Fin 9, ¬(i = r ∧ j = c) := fun i h => hjc h.2
  constructor
  · rintro ⟨hx, i, hi⟩
    rw [if_neg (hni i)] at hi
    exact ⟨hx, i, hi⟩
  · rintro ⟨hx, i, hi⟩
    exact ⟨hx, i, by rw [if_neg (hni i)]; exact hi⟩

theorem boxDigits_place_other {s : SudokuState} {r c : Fin 9} {d : ℕ} {k : Fin 9}
    (hk : k ≠ boxIdx r c) :
    boxDigits (place s r c d).board k = boxDigits s.board k := by
  ext x
  simp only [mem_boxDigits, place]
  constructor
  · rintro ⟨hx, rc, hbk, he⟩
    refine ⟨hx, rc, hbk, ?_⟩
    have : ¬(rc.1 = r ∧ rc.2 = c) := by
      rintro ⟨h1, h2⟩
      exact hk (by rw [← hbk, h1, h2])
    rwa [if_neg this] at he
  · rintro ⟨hx, rc, hbk, he⟩
    refine ⟨hx, rc, hbk, ?_⟩
    have : ¬(rc.1 = r ∧ rc.2 = c) := by
      rintro ⟨h1, h2⟩
      exact hk (by rw [← hbk, h1, h2])
    rwa [if_neg this]

/-- Placing a legal digit on an empty cell keeps the tracked sets equal to
the actual row, column and box digit sets. -/
theorem place_consistent {s : SudokuState} {r c : Fin 9} {d : ℕ}
    (hcons : Consistent s) (hempty : s.board r c = 0) (hd : d ≠ 0) :
    Consistent (place s r c d) := by
  obtain ⟨hrows, hcols, hboxes⟩ := hcons
  refine ⟨fun i => ?_, fun j => ?_, fun k => ?_⟩
  · show Function.update s.rows r (insert d (s.rows r)) i = _
    by_cases hir : i = r
    · rw [hir, Function.update_same, hrows r, rowDigits_place_same hempty hd]
    · rw [Function.update_noteq hir, hrows i, rowDigits_place_other hir]
  · show Function.update s.cols c (insert d (s.cols c)) j = _
    by_cases hjc : j = c
    · rw [hjc, Function.update_same, hcols c, colDigits_place_same hempty hd]
    · rw [Function.update_noteq hjc, hcols j, colDigits_place_other hjc]
  · show Function.update s.boxes (boxIdx r c) (insert d (s.boxes (boxIdx r c))) k = _
    by_cases hkb : k = boxIdx r c
    · rw [hkb, Function.update_same, hboxes (boxIdx r c), boxDigits_place_same hempty hd]
    · rw [Function.update_noteq hkb, hboxes k, boxDigits_place_other hkb]

/-- A placement fills exactly one empty cell. -/
theorem countEmpty_place {s : SudokuState} {r c : Fin 9} {d : ℕ}
    (hempty : s.board r c = 0) (hd : d ≠ 0) :
    countEmpty (place s r c d).board + 1 = countEmpty s.board := by
  have hmem : ((r, c) : Fin 9 × Fin 9) ∈
      (Finset.univ : Finset (Fin 9 × Fin 9)).filter (fun rc => s.board rc.1 rc.2 = 0) := by
    simp [hempty]
  have hset : (Finset.univ : Finset (Fin 9 × Fin 9)).filter
        (fun rc => (place s r c d).board rc.1 rc.2 = 0) =
      ((Finset.univ : Finset (Fin 9 × Fin 9)).filter
        (fun rc => s.board rc.1 rc.2 = 0)).erase (r, c) := by
    ext q
    simp only [Finset.mem_filter, Finset.mem_univ, true_and, Finset.mem_erase]
    by_cases hq : q.1 = r ∧ q.2 = c
    · have hqe : q = (r, c) := Prod.ext hq.1 hq.2
      subst hqe
      simp [place, hd]
    · have hqne : q ≠ (r, c) := by
        intro he
        exact hq ⟨by rw [he], by rw [he]⟩
      simp [place, hq, hqne]
  unfold countEmpty
  rw [hset, Finset.card_erase_of_mem hmem]
  have hpos : 0 < ((Finset.univ : Finset (Fin 9 × Fin 9)).filter
      (fun rc => s.board rc.1 rc.2 = 0)).card :=
    Finset.card_pos.mpr ⟨(r, c), hmem⟩
  omega

/-- The search maintains the incremental-constraint invariant at every
step. -/
theorem dfsRec_consistent : ∀ (l : List (Fin 9 × Fin 9)) (s : SudokuState),
    Consistent s → Consistent (dfsRec s l).2 := by
  intro l
  induction l with
  | nil => intro s h; exact h
  | cons rc rest ih =>
    have loop : ∀ (ds : List ℕ) (s : SudokuState), Consistent s →
        s.board rc.1 rc.2 = 0 → (∀ d ∈ ds, d ∈ validMove s rc) →
        Consistent (sudokuLoopF (fun s1 => dfsRec s1 rest) rc s ds).2 := by
      intro ds
      induction ds with
      | nil => intro s h _ _; exact h
      | cons d ds ihd =>
        intro s hcons hempty hds
        have hdv : d ∈ validMove s rc := hds d (List.mem_cons_self d ds)
        have hplace : Consistent (place s rc.1 rc.2 d) :=
          place_consistent hcons hempty (validMove_ne_zero hdv)
        by_cases hr : (dfsRec (place s rc.1 rc.2 d) rest).1 = true
        · simp only [sudokuLoopF, if_pos hr]
          exact ih _ hplace
        · have hrf : (dfsRec (place s rc.1 rc.2 d) rest).1 = false := by
            revert hr; cases (dfsRec (place s rc.1 rc.2 d) rest).1 <;> simp
          have hundo : unplace (dfsRec (place s rc.1 rc.2 d) rest).2 rc.1 rc.2 d = s := by
            rw [dfsRec_frame rest _ hrf]
            exact unplace_place hempty hdv
          simp only [sudokuLoopF, if_neg hr]
          rw [hundo]
          exact ihd s hcons hempty (fun x hx => hds x (List.mem_cons_of_mem d hx))
    intro s hcons
    by_cases hc : s.board rc.1 rc.2 ≠ 0
    · simp only [dfsRec, if_pos hc]
      exact ih s hcons
    · have hc0 : s.board rc.1 rc.2 = 0 := by omega
      simp only [dfsRec, if_neg hc]
      exact loop _ s hcons hc0 (fun x hx => hx)

/-- Digits contributed to key `k` (a row, column or box index, selected by
the projection `κ`) by the cells of a list. -/
def listKeyDigits (b : SBoard) (κ : Fin 9 × Fin 9 → Fin 9) (k : Fin 9)
    (L : List (Fin 9 × Fin 9)) : Finset ℕ :=
  L.foldr (fun rc acc =>
    if κ rc = k ∧ b rc.1 rc.2 ≠ 0 then insert (b rc.1 rc.2) acc else acc) ∅

theorem mem_listKeyDigits {b : SBoard} {κ : Fin 9 × Fin 9 → Fin 9} {k : Fin 9}
    {x : ℕ} : ∀ {L : List (Fin 9 × Fin 9)},
    x ∈ listKeyDigits b κ k L ↔
      ∃ rc ∈ L, κ rc = k ∧ b rc.1 rc.2 ≠ 0 ∧ b rc.1 rc.2 = x := by
  intro L
  induction L with
  | nil => simp [listKeyDigits]
  | cons rc L ih =>
    unfold listKeyDigits at ih ⊢
    simp only [List.foldr_cons]
    by_cases h : κ rc = k ∧ b rc.1 rc.2 ≠ 0
    · rw [if_pos h]
      simp only [Finset.mem_insert, ih, List.mem_cons]
      constructor
      · rintro (rfl | ⟨rc2, h2, h3⟩)
        · exact ⟨rc, Or.inl rfl, h.1, h.2, rfl⟩
        · exact ⟨rc2, Or.inr h2, h3⟩
      · rintro ⟨rc2, (rfl | h2), h3, h4, h5⟩
        · exact Or.inl h5.symm
        · exact Or.inr ⟨rc2, h2, h3, h4, h5⟩
    · rw [if_neg h, ih]
      constructor
      · rintro ⟨rc2, h2, h3⟩
        exact ⟨rc2, List.mem_cons_of_mem _ h2, h3⟩
      · rintro ⟨rc2, h2, h3, h4, h5⟩
        rcases List.mem_cons.mp h2 with rfl | h2
        · exact absurd ⟨h3, h4⟩ h
        · exact ⟨rc2, h2, h3, h4, h5⟩

/-- Characterisation of the `find_empties` scan over any cell list. -/
theorem findEmpties_foldl (b : SBoard) : ∀ (L : List (Fin 9 × Fin 9))
    (s : SudokuState) (E : List (Fin 9 × Fin 9)), s.board = b →
    (List.foldl findEmptiesStep (s, E) L).1.board = b ∧
    (∀ i, (List.foldl findEmptiesStep (s, E) L).1.rows i =
      s.rows i ∪ listKeyDigits b (fun rc => rc.1) i L) ∧
    (∀ j, (List.foldl findEmptiesStep (s, E) L).1.cols j =
      s.cols j ∪ listKeyDigits b (fun rc => rc.2) j L) ∧
    (∀ k, (List.foldl findEmptiesStep (s, E) L).1.boxes k =
      s.boxes k ∪ listKeyDigits b (fun rc => boxIdx rc.1 rc.2) k L) ∧
    (List.foldl findEmptiesStep (s, E) L).2 =
      E ++ L.filter (fun rc => decide (b rc.1 rc.2 = 0)) := by
  intro L
  induction L with
  | nil =>
    intro s E hb
    refine ⟨hb, fun i => ?_, fun j => ?_, fun k => ?_, by simp⟩ <;>
      simp [listKeyDigits]
  | cons rc L ih =>
    intro s E hb
    rw [List.foldl_cons]
    by_cases hv : s.board rc.1 rc.2 = 0
    · have hstep : findEmptiesStep (s, E) rc = (s, E ++ [rc]) := by
        simp [findEmptiesStep, hv]
      rw [hstep]
      obtain ⟨g1, g2, g3, g4, g5⟩ := ih s (E ++ [rc]) hb
      have hbz : b rc.1 rc.2 = 0 := by rw [← hb]; exact hv
      refine ⟨g1, fun i => ?_, fun j => ?_, fun k => ?_, ?_⟩
      · rw [g2 i]
        unfold listKeyDigits
        rw [List.foldr_cons, if_neg (by simp [hbz])]
      · rw [g3 j]
        unfold listKeyDigits
        rw [List.foldr_cons, if_neg (by simp [hbz])]
      · rw [g4 k]
        unfold listKeyDigits
        rw [List.foldr_cons, if_neg (by simp [hbz])]
      · rw [g5, List.filter_cons, if_pos (by simp [hbz]), List.append_assoc]
        rfl
    · set v := s.board rc.1 rc.2 with hvdef
      set s2 : SudokuState :=
        { s with
            rows := Function.update s.rows rc.1 (insert v (s.rows rc.1)),
            cols := Function.update s.cols rc.2 (insert v (s.cols rc.2)),
            boxes := Function.update s.boxes (boxIdx rc.1 rc.2)
              (insert v (s.boxes (boxIdx rc.1 rc.2))) } with hs2
      have hstep : findEmptiesStep (s, E) rc = (s2, E) := by
        simp [findEmptiesStep, hv, hs2]
      rw [hstep]
      obtain ⟨g1, g2, g3, g4, g5⟩ := ih s2 E hb
      have hbv : b rc.1 rc.2 = v := by rw [← hb]
      have hbnz : b rc.1 rc.2 ≠ 0 := by rw [hbv]; exact hv
      refine ⟨g1, fun i => ?_, fun j => ?_, fun k => ?_, ?_⟩
      · rw [g2 i]
        unfold listKeyDigits
        rw [List.foldr_cons]
        by_cases hik : rc.1 = i
        · rw [if_pos ⟨hik, hbnz⟩]
          show Function.update s.rows rc.1 (insert v (s.rows rc.1)) i ∪ _ = _
          rw [← hik, Function.update_same, hbv, Finset.insert_union,
            Finset.union_insert]
        · rw [if_neg (by tauto)]
          show Function.update s.rows rc.1 (insert v (s.rows rc.1)) i ∪ _ = _
          rw [Function.update_noteq (fun h => hik h.symm)]
      · rw [g3 j]
        unfold listKeyDigits
        rw [List.foldr_cons]
        by_cases hjk : rc.2 = j
        · rw [if_pos ⟨hjk, hbnz⟩]
          show Function.update s.cols rc.2 (insert v (s.cols rc.2)) j ∪ _ = _
          rw [← hjk, Function.update_same, hbv, Finset.insert_union,
            Finset.union_insert]
        · rw [if_neg (by tauto)]
          show Function.update s.cols rc.2 (insert v (s.cols rc.2)) j ∪ _ = _
          rw [Function.update_noteq (fun h => hjk h.symm)]
      · rw [g4 k]
        unfold listKeyDigits
        rw [List.foldr_cons]
        by_cases hkk : boxIdx rc.1 rc.2 = k
        · rw [if_pos ⟨hkk, hbnz⟩]
          show Function.update s.boxes (boxIdx rc.1 rc.2)
            (insert v (s.boxes (boxIdx rc.1 rc.2))) k ∪ _ = _
          rw [← hkk, Function.update_same, hbv, Finset.insert_union,
            Finset.union_insert]
        · rw [if_neg (by tauto)]
          show Function.update s.boxes (boxIdx rc.1 rc.2)
            (insert v (s.boxes (boxIdx rc.1 rc.2))) k ∪ _ = _
          rw [Function.update_noteq (fun h => hkk h.symm)]
      · rw [g5, List.filter_cons, if_neg (by simp [hbnz])]

theorem listKeyDigits_row (b : SBoard) (i : Fin 9) :
    listKeyDigits b (fun rc => rc.1) i cellList9 = rowDigits b i := by
  ext x
  rw [mem_listKeyDigits, mem_rowDigits]
  constructor
  · rintro ⟨rc, _, hk, hne, he⟩
    refine ⟨by rw [← he]; exact hne, rc.2, ?_⟩
    rw [← hk]
    exact he
  · rintro ⟨hx, j, hj⟩
    exact ⟨(i, j), mem_cellList9 _, rfl, by rw [hj]; exact hx, hj⟩

theorem listKeyDigits_col (b : SBoard) (j : Fin 9) :
    listKeyDigits b (fun rc => rc.2) j cellList9 = colDigits b j := by
  ext x
  rw [mem_listKeyDigits, mem_colDigits]
  constructor
  · rintro ⟨rc, _, hk, hne, he⟩
    refine ⟨by rw [← he]; exact hne, rc.1, ?_⟩
    rw [← hk]
    exact he
  · rintro ⟨hx, i, hi⟩
    exact ⟨(i, j), mem_cellList9 _, rfl, by rw [hi]; exact hx, hi⟩

theorem listKeyDigits_box (b : SBoard) (k : Fin 9) :
    listKeyDigits b (fun rc => boxIdx rc.1 rc.2) k cellList9 = boxDigits b k := by
  ext x
  rw [mem_listKeyDigits, mem_boxDigits]
  constructor
  · rintro ⟨rc, _, hk, hne, he⟩
    exact ⟨by rw [← he]; exact hne, rc, hk, he⟩
  · rintro ⟨hx, rc, hk, he⟩
    exact ⟨rc, mem_cellList9 _, hk, by rw [he]; exact hx, he⟩

/-- `find_empties` leaves the board untouched. -/
theorem findEmpties_board (b : SBoard) : (findEmpties b).1.board = b := by
  unfold findEmpties
  exact (findEmpties_foldl b cellList9
    { board := b, rows := fun _ => ∅, cols := fun _ => ∅, boxes := fun _ => ∅ }
    [] rfl).1

/-- `find_empties` establishes the incremental-constraint invariant. -/
theorem findEmpties_consistent (b : SBoard) : Consistent (findEmpties b).1 := by
  unfold findEmpties
  obtain ⟨g1, g2, g3, g4, _⟩ := findEmpties_foldl b cellList9
    { board := b, rows := fun _ => ∅, cols := fun _ => ∅, boxes := fun _ => ∅ }
    [] rfl
  refine ⟨fun i => ?_, fun j => ?_, fun k => ?_⟩
  · rw [g2 i, listKeyDigits_row, g1]
    exact Finset.empty_union _
  · rw [g3 j, listKeyDigits_col, g1]
    exact Finset.empty_union _
  · rw [g4 k, listKeyDigits_box, g1]
    exact Finset.empty_union _

/-- `find_empties` collects exactly the empty cells, in row-major order. -/
theorem findEmpties_empties (b : SBoard) :
    (findEmpties b).2 = cellList9.filter (fun rc => decide (b rc.1 rc.2 = 0)) := by
  unfold findEmpties
  exact (findEmpties_foldl b cellList9
    { board := b, rows := fun _ => ∅, cols := fun _ => ∅, boxes := fun _ => ∅ }
    [] rfl).2.2.2.2

/-!
Hashiwokakero (`references/hashiwokakero/hashi.py`): the islands are Python
objects mutated in place; they are embedded as entries of a `nodes` list
addressed by index, object identity becoming index equality (`parse_map`
creates one object per island).  Only the state mutated by `add_bridge` is
modelled; the fields used by printing are carried along verbatim.
-/

/-- An `Island` object: coordinates, required degree `max_bridges`, current
degree `curr_bridges`, and the at-most-one neighbour per direction. -/
structure Island where
  x : ℕ
  y : ℕ
  maxBridges : ℕ
  currBridges : ℤ
  neighbours : Fin 4 → Option ℕ

/-- A `Bridge` object between two islands (by node index). -/
structure Bridge where
  island1 : ℕ
  island2 : ℕ
  direction : Fin 4
  symbol : Char
  wires : ℕ
  skip : Bool

/-- The `Puzzle`: `nodes` and the `edges` built so far (`nbridges` is the
length of `edges`). -/
structure HashiPuzzle where
  nodes : List Island
  edges : List Bridge

/-- The unordered island-pair test used by `constructBridge`, `can_build_bridge`
and `remove_bridge`. -/
def matchingEdge (br : Bridge) (i1 i2 : ℕ) : Bool :=
  (br.island1 == i1 && br.island2 == i2) || (br.island1 == i2 && br.island2 == i1)

/-- The bridge symbol chosen by `add_bridge` for a wire count. -/
def bridgeSymbol (w : ℕ) (dir : Fin 4) : Char :=
  let horizontal : Bool := dir == 1 || dir == 3
  if w = 1 then (if horizontal then '-' else '|')
  else if w = 2 then (if horizontal then '=' else '"')
  else (if horizontal then 'E' else '#')

/-- Increment `curr_bridges` of the island object at an index. -/
def bumpCurr (nodes : List Island) (i : ℕ) : List Island :=
  match nodes.get? i with
  | some isl => nodes.set i { isl with currBridges := isl.currBridges + 1 }
  | none => nodes

/-- `add_bridge` (hashi.py lines 257-276): find or create the bridge object
for the pair, give up if it already has 3 wires, otherwise add a wire,
increment both islands, and record a fresh bridge in `edges`. -/
def addBridge (p : HashiPuzzle) (idx : ℕ) (dir : Fin 4) : HashiPuzzle :=
  match p.nodes.get? idx with
  | none => p
  | some island =>
    match island.neighbours dir with
    | none => p
    | some idx2 =>
      match hn : p.edges.findIdx? (fun br => matchingEdge br idx idx2) with
      | some n =>
        let br := p.edges.getD n (Bridge.mk idx idx2 dir ' ' 0 false)
        if br.wires = 3 then p
        else
          { nodes := bumpCurr (bumpCurr p.nodes idx) idx2,
            edges := p.edges.set n
              { br with wires := br.wires + 1,
                        symbol := bridgeSymbol (br.wires + 1) br.direction } }
      | none =>
        { nodes := bumpCurr (bumpCurr p.nodes idx) idx2,
          edges := p.edges ++
            [{ island1 := idx, island2 := idx2, direction := dir,
               symbol := bridgeSymbol 1 dir, wires := 1, skip := false }] }

theorem bumpCurr_get_same {nodes : List Island} {i : ℕ} {isl : Island}
    (h : nodes.get? i = some isl) :
    (bumpCurr nodes i).get? i = some { isl with currBridges := isl.currBridges + 1 } := by
  unfold bumpCurr
  rw [h]
  have hi : i < nodes.length := by
    by_contra hcon
    rw [List.get?_eq_none.mpr (by omega)] at h
    exact Option.noConfusion h
  simp [List.get?_set_eq, hi]

theorem bumpCurr_get_ne {nodes : List Island} {i j : ℕ} (hne : j ≠ i) :
    (bumpCurr nodes i).get? j = nodes.get? j := by
  unfold bumpCurr
  cases h : nodes.get? i with
  | none => rfl
  | some isl =>
    rw [List.get?_set_ne]
    exact fun hh => hne hh.symm

/-- Building a bridge increments the current degree of both endpoint
islands: the remaining required degree of each strictly decreases. -/
theorem addBridge_bumps {p : HashiPuzzle} {idx idx2 : ℕ} {dir : Fin 4}
    {isl1 isl2 : Island}
    (h1 : p.nodes.get? idx = some isl1)
    (hn : isl1.neighbours dir = some idx2)
    (h2 : p.nodes.get? idx2 = some isl2)
    (hne : idx ≠ idx2)
    (hwires : ∀ n, p.edges.findIdx? (fun br => matchingEdge br idx idx2) = some n →
      (p.edges.getD n (Bridge.mk idx idx2 dir ' ' 0 false)).wires ≠ 3) :
    ((addBridge p idx dir).nodes.get? idx =
        some { isl1 with currBridges := isl1.currBridges + 1 }) ∧
      ((addBridge p idx dir).nodes.get? idx2 =
        some { isl2 with currBridges := isl2.currBridges + 1 }) := by
  have hnodes : (addBridge p idx dir).nodes = bumpCurr (bumpCurr p.nodes idx) idx2 := by
    unfold addBridge
    split
    · next heq =>
      rw [h1] at heq
      exact Option.noConfusion heq
    · next island heq =>
      rw [h1] at heq
      injection heq with heq2
      subst heq2
      split
      · next heq3 =>
        rw [hn] at heq3
        exact Option.noConfusion heq3
      · next idx2b heq3 =>
        rw [hn] at heq3
        injection heq3 with heq4
        subst heq4
        split
        · next n hfi =>
          have hw := hwires n hfi
          simp only [if_neg hw]
        · next hfi => rfl
  rw [hnodes]
  constructor
  · rw [bumpCurr_get_ne hne]
    exact bumpCurr_get_same h1
  · exact bumpCurr_get_same (by rw [bumpCurr_get_ne (fun h => hne h.symm)]; exact h2)

theorem mem_findEmpties (b : SBoard) (rc : Fin 9 × Fin 9) :
    rc ∈ (findEmpties b).2 ↔ b rc.1 rc.2 = 0 := by
  rw [findEmpties_empties]
  simp [List.mem_filter, mem_cellList9]

/-- Single-empty-cell scenario: when exactly one cell is empty and its row,
column and box together hold 8 distinct digits, `validMove` offers exactly
one candidate and the search fills the board. -/
theorem single_empty_solves (b : SBoard) (r c : Fin 9)
    (hdig : ∀ i j, b i j ≤ 9)
    (hone : (findEmpties b).2 = [(r, c)])
    (hcard : (rowDigits b r ∪ colDigits b c ∪ boxDigits b (boxIdx r c)).card = 8) :
    (∃ d, validMove (findEmpties b).1 (r, c) = [d]) ∧
    (solveSudoku b).1 = true ∧
    (∀ i j, (solveSudoku b).2.board i j ≠ 0) := by
  have hbrc : b r c = 0 := by
    have h := mem_findEmpties b (r, c)
    rw [hone] at h
    exact h.mp (by simp)
  have honly : ∀ rc : Fin 9 × Fin 9, b rc.1 rc.2 = 0 → rc = (r, c) := by
    intro rc h
    have h2 := mem_findEmpties b rc
    rw [hone] at h2
    simpa using h2.mpr h
  have hb := findEmpties_board b
  have hcons := findEmpties_consistent b
  unfold solveSudoku
  rw [hone]
  obtain ⟨st, hst⟩ : ∃ st, (findEmpties b).1 = st := ⟨_, rfl⟩
  rw [hst] at hb hcons ⊢
  have hrows : st.rows r = rowDigits b r := by rw [hcons.1 r, hb]
  have hcols : st.cols c = colDigits b c := by rw [hcons.2.1 c, hb]
  have hboxes : st.boxes (boxIdx r c) = boxDigits b (boxIdx r c) := by
    rw [hcons.2.2 (boxIdx r c), hb]
  have hvm : validMove st (r, c) =
      [1, 2, 3, 4, 5, 6, 7, 8, 9].filter (fun d =>
        decide (d ∉ rowDigits b r ∪ colDigits b c ∪ boxDigits b (boxIdx r c))) := by
    unfold validMove
    apply List.filter_congr
    intro d _
    rw [decide_eq_decide]
    rw [hrows, hcols, hboxes]
    simp only [Finset.mem_union, not_or]
    constructor
    · rintro ⟨h1, h2, h3⟩
      exact ⟨⟨h1, h2⟩, h3⟩
    · rintro ⟨⟨h1, h2⟩, h3⟩
      exact ⟨h1, h2, h3⟩
  have hUsub : rowDigits b r ∪ colDigits b c ∪ boxDigits b (boxIdx r c) ⊆
      ([1, 2, 3, 4, 5, 6, 7, 8, 9] : List ℕ).toFinset := by
    intro x hx
    have hx0 : x ≠ 0 ∧ x ≤ 9 := by
      rcases Finset.mem_union.mp hx with hx2 | hx2
      · rcases Finset.mem_union.mp hx2 with hx3 | hx3
        · obtain ⟨hne, j, hj⟩ := mem_rowDigits.mp hx3
          exact ⟨hne, by rw [← hj]; exact hdig r j⟩
        · obtain ⟨hne, i, hi⟩ := mem_colDigits.mp hx3
          exact ⟨hne, by rw [← hi]; exact hdig i c⟩
      · obtain ⟨hne, rc, _, he⟩ := mem_boxDigits.mp hx2
        exact ⟨hne, by rw [← he]; exact hdig rc.1 rc.2⟩
    simp only [List.mem_toFinset]
    simp only [List.mem_cons, List.not_mem_nil, or_false]
    omega
  have hlen : (validMove st (r, c)).length = 1 := by
    rw [hvm]
    have hnodup : ([1, 2, 3, 4, 5, 6, 7, 8, 9] : List ℕ).Nodup := by decide
    have hset : ((([1, 2, 3, 4, 5, 6, 7, 8, 9] : List ℕ).filter (fun d =>
        decide (d ∉ rowDigits b r ∪ colDigits b c ∪ boxDigits b (boxIdx r c)))).toFinset) =
        ([1, 2, 3, 4, 5, 6, 7, 8, 9] : List ℕ).toFinset \
          (rowDigits b r ∪ colDigits b c ∪ boxDigits b (boxIdx r c)) := by
      ext x
      simp [List.mem_toFinset, List.mem_filter, Finset.mem_sdiff]
    rw [← List.toFinset_card_of_nodup (List.Nodup.filter _ hnodup), hset,
      Finset.card_sdiff hUsub, hcard]
    decide
  obtain ⟨d, hd⟩ := List.length_eq_one.mp hlen
  have hdv : d ∈ validMove st (r, c) := by
    rw [hd]
    exact List.mem_singleton_self d
  have hdnz : d ≠ 0 := validMove_ne_zero hdv
  have hstempty : st.board r c = 0 := by rw [hb]; exact hbrc
  have hrun : dfsRec st [(r, c)] = (true, place st r c d) := by
    have e1 : dfsRec st [(r, c)] =
        if st.board r c ≠ 0 then dfsRec st []
        else sudokuLoopF (fun s1 => dfsRec s1 []) (r, c) st (validMove st (r, c)) := rfl
    rw [e1, if_neg (by simp [hstempty]), hd]
    exact rfl
  refine ⟨⟨d, hd⟩, by rw [hrun], ?_⟩
  intro i j
  rw [hrun]
  show (if i = r ∧ j = c then d else st.board i j) ≠ 0
  by_cases hij : i = r ∧ j = c
  · rw [if_pos hij]
    exact hdnz
  · rw [if_neg hij]
    rw [hb]
    intro h0
    exact hij (by have := honly (i, j) h0; exact ⟨congrArg Prod.fst this, congrArg Prod.snd this⟩)

/-!
Concrete inputs used by the witnesses and counterexamples.
-/

/-- A 7x7 board with no pegs at all: no moves, not solved. -/
def pegBlankBoard : PegBoard := mkPegBoard (List.replicate 7 (List.replicate 7 0))

/-- Two pegs and a hole: `[3,1,"d",2]` jumps peg 1 over peg 2 into `(3,3)`,
solving the British goal in one move. -/
def pegTinyBoard : PegBoard := mkPegBoard
  [[0, 0, 0, 0, 0, 0, 0],
   [0, 0, 0, 0, 0, 0, 0],
   [0, 0, 0, 0, 0, 0, 0],
   [0, 1, 2, -1, 0, 0, 0],
   [0, 0, 0, 0, 0, 0, 0],
   [0, 0, 0, 0, 0, 0, 0],
   [0, 0, 0, 0, 0, 0, 0]]

/-- The one legal move of `pegTinyBoard`. -/
def pegTinyMove : PegMove := ⟨3, 1, 'd', 2⟩

/-- Build a sudoku board from a list of rows. -/
def mkSBoard (rows : List (List ℕ)) : SBoard :=
  fun i j => ((rows.getD i.1 []).getD j.1 0)

/-- A 9x9 board with a single empty cell at `(0,0)` whose row, column and
box hold the 8 digits 2..9; the unique candidate is 1. -/
def sudSingleBoard : SBoard := mkSBoard
  ([[0, 2, 3, 4, 5, 6, 7, 8, 9]] ++ List.replicate 8 (List.replicate 9 2))

/-- A 9x9 board with a single empty cell at `(0,0)` that has no candidate
at all (its row, column and box hold all nine digits): the search fails. -/
def sudStuckBoard : SBoard := mkSBoard
  ([[0, 2, 3, 4, 5, 6, 7, 8, 9], [1, 2, 2, 2, 2, 2, 2, 2, 2]] ++
    List.replicate 7 (List.replicate 9 2))

/-- A two-island hashi puzzle, each island requiring one bridge, the second
island to the right of the first. -/
def hashiIsland0 : Island :=
  ⟨0, 0, 1, 0, fun d => if d = 1 then some 1 else none⟩

/-- The right-hand island of the two-island puzzle. -/
def hashiIsland1 : Island :=
  ⟨1, 0, 1, 0, fun d => if d = 3 then some 0 else none⟩

/-- The two-island puzzle itself, with no bridge built yet. -/
def hashiTwo : HashiPuzzle := ⟨[hashiIsland0, hashiIsland1], []⟩

/-- C1.  No-mutation-on-failure: a depth-first search call that returns
failure leaves the Position exactly as it was on entry — for
`PegSolitaire.solve` the shared board and move stack, for the sudoku
`dfs_rec` the board and the three digit-set families.  (Peg boards are
well formed: empty holes hold `EMPTY = -1`, as in every board the programs
construct; jumps preserve this.) -/
theorem c1_no_mutation_on_failure :
    (∀ (fuel : ℕ) (s sf : PegState), WellFormed s.board →
      solveS fuel s = (false, sf) → sf = s) ∧
    (∀ (l : List (Fin 9 × Fin 9)) (s sf : SudokuState),
      dfsRec s l = (false, sf) → sf = s) := by
  constructor
  · intro fuel s sf hwf heq
    have h1 : (solveS fuel s).1 = false := by rw [heq]
    have h2 := solveS_frame fuel s hwf h1
    rw [heq] at h2
    exact h2
  · intro l s sf heq
    have h1 : (dfsRec s l).1 = false := by rw [heq]
    have h2 := dfsRec_frame l s h1
    rw [heq] at h2
    exact h2

set_option maxRecDepth 100000 in
/-- C1 witness: a pegless board (search fails immediately) and a sudoku
board whose single empty cell has no candidate. -/
theorem c1_no_mutation_on_failure_witness :
    (WellFormed pegBlankBoard ∧
      solveS 1 ⟨pegBlankBoard, []⟩ = (false, ⟨pegBlankBoard, []⟩) ∧
      (⟨pegBlankBoard, []⟩ : PegState) = ⟨pegBlankBoard, []⟩) ∧
    (dfsRec (findEmpties sudStuckBoard).1 [((0 : Fin 9), (0 : Fin 9))] =
        (false, (findEmpties sudStuckBoard).1) ∧
      (findEmpties sudStuckBoard).1 = (findEmpties sudStuckBoard).1) :=
  ⟨⟨by decide, rfl, c1_no_mutation_on_failure.1 1 ⟨pegBlankBoard, []⟩
      ⟨pegBlankBoard, []⟩ (by decide) rfl⟩,
    rfl, c1_no_mutation_on_failure.2 [((0 : Fin 9), (0 : Fin 9))]
      (findEmpties sudStuckBoard).1 (findEmpties sudStuckBoard).1 rfl⟩

/-- C2.  Undo exactness: applying a move returned by `get_valid_moves` and
then undoing it restores the Position exactly — board and move stack for
the peg solver, board and digit sets for the sudoku solver. -/
theorem c2_undo_exactness :
    (∀ (s : PegState) (m : PegMove), WellFormed s.board →
      m ∈ getValidMovesBrit s.board → undoMove (makeMove s m) = s) ∧
    (∀ (s : SudokuState) (rc : Fin 9 × Fin 9) (d : ℕ), s.board rc.1 rc.2 = 0 →
      d ∈ validMove s rc → unplace (place s rc.1 rc.2 d) rc.1 rc.2 d = s) :=
  ⟨fun _ _ hwf hm => undo_make hwf hm, fun _ _ _ h hd => unplace_place h hd⟩

set_option maxRecDepth 100000 in
/-- C2 witness: the two-peg board with its jump, and the single-empty
sudoku board with its unique candidate digit. -/
theorem c2_undo_exactness_witness :
    (pegTinyMove ∈ getValidMovesBrit pegTinyBoard ∧
      undoMove (makeMove ⟨pegTinyBoard, []⟩ pegTinyMove) = ⟨pegTinyBoard, []⟩) ∧
    ((findEmpties sudSingleBoard).1.board 0 0 = 0 ∧
      unplace (place (findEmpties sudSingleBoard).1 0 0 1) 0 0 1 =
        (findEmpties sudSingleBoard).1) :=
  ⟨⟨by decide, c2_undo_exactness.1 ⟨pegTinyBoard, []⟩ pegTinyMove (by decide) (by decide)⟩,
    by decide, c2_undo_exactness.2 (findEmpties sudSingleBoard).1 (0, 0) 1
      (by decide) (by decide)⟩

set_option maxRecDepth 100000 in
/-- C8 counterexample: `make_move` performs no validation.  The move
`[3,3,"w",5]` is structurally invalid on the empty board (it is not in
`get_valid_moves`, there is no peg and no jumped peg), yet `make_move`
silently mutates the board instead of failing fast. -/
theorem c8_invalid_move_counterexample :
    (⟨3, 3, 'w', 5⟩ : PegMove) ∉ getValidMovesBrit pegBlankBoard ∧
    applyBoard pegBlankBoard ⟨3, 3, 'w', 5⟩ ≠ pegBlankBoard := by
  constructor
  · decide
  · decide

set_option maxRecDepth 100000 in
/-- C8 amended: `make_move` never fails fast on a structurally invalid
Move; it unconditionally records the move and performs its writes, silently
mutating the Position. -/
theorem c8_invalid_move_amended :
    ((⟨3, 3, 'w', 5⟩ : PegMove) ∉ getValidMovesBrit pegBlankBoard ∧
      applyBoard pegBlankBoard ⟨3, 3, 'w', 5⟩ ≠ pegBlankBoard) ∧
    (∀ (s : PegState) (m : PegMove),
      (makeMove s m).moves = s.moves ++ [shiftMove m]) := by
  refine ⟨⟨by decide, by decide⟩, fun s m => rfl⟩

/-- C9.  Single-empty-cell sudoku scenario: with one empty cell whose row,
column and box already hold 8 distinct digits, `validMove` returns exactly
one candidate, and running the search fills the board (the goal
`idx == len(empties)` is reached with every empty filled). -/
theorem c9_single_empty_cell :
    ∀ (b : SBoard) (r c : Fin 9), (∀ i j, b i j ≤ 9) →
    (findEmpties b).2 = [(r, c)] →
    (rowDigits b r ∪ colDigits b c ∪ boxDigits b (boxIdx r c)).card = 8 →
    (∃ d, validMove (findEmpties b).1 (r, c) = [d]) ∧
    (solveSudoku b).1 = true ∧
    (∀ i j, (solveSudoku b).2.board i j ≠ 0) :=
  fun b r c hdig hone hcard => single_empty_solves b r c hdig hone hcard

set_option maxRecDepth 100000 in
/-- C9 witness: the concrete single-empty board. -/
theorem c9_single_empty_cell_witness :
    ((∀ i j, sudSingleBoard i j ≤ 9) ∧
      (findEmpties sudSingleBoard).2 = [(0, 0)] ∧
      (rowDigits sudSingleBoard 0 ∪ colDigits sudSingleBoard 0 ∪
        boxDigits sudSingleBoard (boxIdx 0 0)).card = 8) ∧
    (∃ d, validMove (findEmpties sudSingleBoard).1 (0, 0) = [d]) ∧
    (solveSudoku sudSingleBoard).1 = true ∧
    (∀ i j, (solveSudoku sudSingleBoard).2.board i j ≠ 0) :=
  ⟨⟨by decide, by decide, by decide⟩,
    c9_single_empty_cell sudSingleBoard 0 0 (by decide) (by decide) (by decide)⟩

/-- C10.  Incremental-constraint invariant: `find_empties` establishes that
`rows[i]`, `cols[j]`, `boxes[(i//3)*3+j//3]` are exactly the digit sets of
the board; each `place` performed by `dfs_rec` preserves it; each undo
restores the state exactly (hence preserves it); and a whole `dfs_rec` call
keeps the correspondence. -/
theorem c10_incremental_invariant :
    (∀ b : SBoard, Consistent (findEmpties b).1) ∧
    (∀ (s : SudokuState) (r c : Fin 9) (d : ℕ), Consistent s →
      s.board r c = 0 → d ≠ 0 → Consistent (place s r c d)) ∧
    (∀ (s : SudokuState) (rc : Fin 9 × Fin 9) (d : ℕ), s.board rc.1 rc.2 = 0 →
      d ∈ validMove s rc → unplace (place s rc.1 rc.2 d) rc.1 rc.2 d = s) ∧
    (∀ (l : List (Fin 9 × Fin 9)) (s : SudokuState), Consistent s →
      Consistent (dfsRec s l).2) :=
  ⟨findEmpties_consistent,
    fun _ _ _ _ hc he hd => place_consistent hc he hd,
    fun _ _ _ he hd => unplace_place he hd,
    dfsRec_consistent⟩

set_option maxRecDepth 100000 in
/-- C10 witness: the single-empty board, its `find_empties` state, one
placement and one search run. -/
theorem c10_incremental_invariant_witness :
    Consistent (findEmpties sudSingleBoard).1 ∧
    Consistent (place (findEmpties sudSingleBoard).1 0 0 1) ∧
    unplace (place (findEmpties sudSingleBoard).1 0 0 1) 0 0 1 =
      (findEmpties sudSingleBoard).1 ∧
    Consistent (dfsRec (findEmpties sudSingleBoard).1 [((0 : Fin 9), (0 : Fin 9))]).2 :=
  ⟨c10_incremental_invariant.1 sudSingleBoard,
    c10_incremental_invariant.2.1 (findEmpties sudSingleBoard).1 0 0 1
      (c10_incremental_invariant.1 sudSingleBoard) (by decide) (by decide),
    c10_incremental_invariant.2.2.1 (findEmpties sudSingleBoard).1 (0, 0) 1
      (by decide) (by decide),
    c10_incremental_invariant.2.2.2 [((0 : Fin 9), (0 : Fin 9))]
      (findEmpties sudSingleBoard).1 (c10_incremental_invariant.1 sudSingleBoard)⟩

/-- C7.  Termination measures: each peg jump removes exactly one peg, so
`solve` stabilises for any fuel beyond the peg count (the recursion depth
is bounded and the search terminates); each sudoku placement fills exactly
one empty cell (and `dfs_rec` is structural recursion over the `empties`
suffix); each hashi bridge build increments `curr_bridges` of both endpoint
islands, strictly decreasing their remaining required degree. -/
theorem c7_termination_measures :
    (∀ (b : PegBoard) (m : PegMove), m ∈ getValidMovesBrit b →
      pegCount (applyBoard b m) + 1 = pegCount b) ∧
    (∀ (s : PegState) (f1 f2 : ℕ), WellFormed s.board →
      pegCount s.board < f1 → pegCount s.board < f2 →
      solveS f1 s = solveS f2 s) ∧
    (∀ (s : SudokuState) (r c : Fin 9) (d : ℕ), s.board r c = 0 → d ≠ 0 →
      countEmpty (place s r c d).board + 1 = countEmpty s.board) ∧
    (∀ (p : HashiPuzzle) (idx idx2 : ℕ) (dir : Fin 4) (isl1 isl2 : Island),
      p.nodes.get? idx = some isl1 → isl1.neighbours dir = some idx2 →
      p.nodes.get? idx2 = some isl2 → idx ≠ idx2 →
      (∀ n, p.edges.findIdx? (fun br => matchingEdge br idx idx2) = some n →
        (p.edges.getD n (Bridge.mk idx idx2 dir ' ' 0 false)).wires ≠ 3) →
      ∃ isl1b isl2b, (addBridge p idx dir).nodes.get? idx = some isl1b ∧
        (addBridge p idx dir).nodes.get? idx2 = some isl2b ∧
        (isl1b.maxBridges : ℤ) - isl1b.currBridges <
          (isl1.maxBridges : ℤ) - isl1.currBridges ∧
        (isl2b.maxBridges : ℤ) - isl2b.currBridges <
          (isl2.maxBridges : ℤ) - isl2.currBridges) := by
  refine ⟨fun _ _ hm => pegCount_apply_brit hm,
    fun s f1 f2 hwf h1 h2 =>
      solveS_fuel_irrelevant (pegCount s.board) s f1 f2 hwf rfl h1 h2,
    fun _ _ _ _ he hd => countEmpty_place he hd, ?_⟩
  intro p idx idx2 dir isl1 isl2 h1 hn h2 hne hwires
  obtain ⟨g1, g2⟩ := addBridge_bumps h1 hn h2 hne hwires
  refine ⟨_, _, g1, g2, ?_, ?_⟩
  · show (isl1.maxBridges : ℤ) - (isl1.currBridges + 1) <
      (isl1.maxBridges : ℤ) - isl1.currBridges
    omega
  · show (isl2.maxBridges : ℤ) - (isl2.currBridges + 1) <
      (isl2.maxBridges : ℤ) - isl2.currBridges
    omega

set_option maxRecDepth 100000 in
/-- C7 witness: the two-peg board and its jump, the single-empty sudoku
board, and the two-island hashi puzzle. -/
theorem c7_termination_measures_witness :
    (pegTinyMove ∈ getValidMovesBrit pegTinyBoard ∧
      pegCount (applyBoard pegTinyBoard pegTinyMove) + 1 = pegCount pegTinyBoard) ∧
    solveS 3 ⟨pegTinyBoard, []⟩ = solveS 4 ⟨pegTinyBoard, []⟩ ∧
    countEmpty (place (findEmpties sudSingleBoard).1 0 0 1).board + 1 =
      countEmpty (findEmpties sudSingleBoard).1.board ∧
    (∃ isl1b isl2b, (addBridge hashiTwo 0 1).nodes.get? 0 = some isl1b ∧
      (addBridge hashiTwo 0 1).nodes.get? 1 = some isl2b ∧
      (isl1b.maxBridges : ℤ) - isl1b.currBridges <
        (hashiIsland0.maxBridges : ℤ) - hashiIsland0.currBridges ∧
      (isl2b.maxBridges : ℤ) - isl2b.currBridges <
        (hashiIsland1.maxBridges : ℤ) - hashiIsland1.currBridges) :=
  ⟨⟨by decide, c7_termination_measures.1 pegTinyBoard pegTinyMove (by decide)⟩,
    c7_termination_measures.2.1 ⟨pegTinyBoard, []⟩ 3 4 (by decide) (by decide) (by decide),
    c7_termination_measures.2.2.1 (findEmpties sudSingleBoard).1 0 0 1
      (by decide) (by decide),
    c7_termination_measures.2.2.2 hashiTwo 0 1 1 hashiIsland0 hashiIsland1
      rfl (by decide) rfl (by decide)
      (fun n h => Option.noConfusion h)⟩

/-- A board whose peg at `(2,2)` has two legal jump directions (up and
left): the British `elif` chain returns only the up move for it. -/
def pegElifBoard : PegBoard := mkPegBoard
  [[0, 0, -1, 0, 0, 0, 0],
   [0, 0, 1, 0, 0, 0, 0],
   [-1, 2, 3, 0, 0, 0, 0],
   [0, 0, 0, 0, 0, 0, 0],
   [0, 0, 0, 0, 0, 0, 0],
   [0, 0, 0, 0, 0, 0, 0],
   [0, 0, 0, 0, 0, 0, 0]]

/-- European enumeration is complete: one move per legal direction of every
peg appears in `get_valid_moves`. -/
theorem validsEuro_complete (b : PegBoard) (i c : ℤ) (hr : inRange i c)
    (hp : 0 < getCell b i c) :
    (wCond b i c → wMove b i c ∈ getValidMovesEuro b) ∧
    (aCond b i c → aMove b i c ∈ getValidMovesEuro b) ∧
    (sCond b i c → sMove b i c ∈ getValidMovesEuro b) ∧
    (dCond b i c → dMove b i c ∈ getValidMovesEuro b) := by
  refine ⟨fun h => ?_, fun h => ?_, fun h => ?_, fun h => ?_⟩ <;>
    exact mem_validsEuro.mpr ⟨i, c, hr, mem_cellMovesEuro.mpr ⟨hp, by tauto⟩⟩

/-- British enumeration keeps only the first legal direction of each peg:
with both the up and the left jump legal, only the up move appears. -/
theorem validsBrit_first_only (b : PegBoard) (i c : ℤ) (hr : inRange i c)
    (hp : 0 < getCell b i c) (hw : wCond b i c) (ha : aCond b i c) :
    wMove b i c ∈ getValidMovesBrit b ∧ aMove b i c ∉ getValidMovesBrit b := by
  constructor
  · exact mem_validsBrit.mpr ⟨i, c, hr, mem_cellMovesBrit.mpr ⟨hp, Or.inl ⟨hw, rfl⟩⟩⟩
  · intro hmem
    obtain ⟨i2, c2, hr2, hcm⟩ := mem_validsBrit.mp hmem
    obtain ⟨hp2, hcase⟩ := mem_cellMovesBrit.mp hcm
    rcases hcase with h | h | h | h
    · have hd : ('a' : Char) = 'w' := congrArg PegMove.dir h.2
      exact absurd hd (by decide)
    · have h1 : i = i2 := congrArg PegMove.i h.2.2
      have h2 : c = c2 := congrArg PegMove.c h.2.2
      rw [← h1, ← h2] at h
      exact h.1 hw
    · have hd : ('a' : Char) = 's' := congrArg PegMove.dir h.2.2.2
      exact absurd hd (by decide)
    · have hd : ('a' : Char) = 'd' := congrArg PegMove.dir h.2.2.2.2
      exact absurd hd (by decide)


/-- Every move contributed by a cell carries that cell as its origin. -/
theorem cellMovesBrit_origin {b : PegBoard} {i c : ℤ} {m : PegMove}
    (hm : m ∈ cellMovesBrit b i c) : m.i = i ∧ m.c = c := by
  obtain ⟨hp, hcase⟩ := mem_cellMovesBrit.mp hm
  rcases hcase with h | h | h | h
  · rw [h.2]; exact ⟨rfl, rfl⟩
  · rw [h.2.2]; exact ⟨rfl, rfl⟩
  · rw [h.2.2.2]; exact ⟨rfl, rfl⟩
  · rw [h.2.2.2.2]; exact ⟨rfl, rfl⟩

/-- Full per-peg characterisation of the British enumerator: a move of the
returned list originating at `(i, c)` exists exactly for the first legal
direction of that peg in w, a, s, d order, whatever combination of
directions is legal. -/
theorem validsBrit_of_peg (b : PegBoard) (i c : ℤ) (m : PegMove)
    (hr : inRange i c) :
    (m ∈ getValidMovesBrit b ∧ m.i = i ∧ m.c = c) ↔
      (0 < getCell b i c ∧
        ((wCond b i c ∧ m = wMove b i c) ∨
         (¬wCond b i c ∧ aCond b i c ∧ m = aMove b i c) ∨
         (¬wCond b i c ∧ ¬aCond b i c ∧ sCond b i c ∧ m = sMove b i c) ∨
         (¬wCond b i c ∧ ¬aCond b i c ∧ ¬sCond b i c ∧ dCond b i c ∧
           m = dMove b i c))) := by
  constructor
  · rintro ⟨hmem, hi, hc⟩
    obtain ⟨i2, c2, hr2, hcm⟩ := mem_validsBrit.mp hmem
    obtain ⟨o1, o2⟩ := cellMovesBrit_origin hcm
    have hii : i2 = i := by rw [← o1, hi]
    have hcc : c2 = c := by rw [← o2, hc]
    rw [hii, hcc] at hcm
    exact mem_cellMovesBrit.mp hcm
  · intro h
    have hcm : m ∈ cellMovesBrit b i c := mem_cellMovesBrit.mpr h
    obtain ⟨o1, o2⟩ := cellMovesBrit_origin hcm
    exact ⟨mem_validsBrit.mpr ⟨i, c, hr, hcm⟩, o1, o2⟩

/-- The British enumerator returns at most one move per peg: two returned
moves with the same origin coincide. -/
theorem validsBrit_at_most_one (b : PegBoard) (m1 m2 : PegMove)
    (h1 : m1 ∈ getValidMovesBrit b) (h2 : m2 ∈ getValidMovesBrit b)
    (hi : m1.i = m2.i) (hc : m1.c = m2.c) : m1 = m2 := by
  obtain ⟨i, c, hr, hcm1⟩ := mem_validsBrit.mp h1
  obtain ⟨o1, o2⟩ := cellMovesBrit_origin hcm1
  obtain ⟨i2, c2, hr2, hcm2⟩ := mem_validsBrit.mp h2
  obtain ⟨p1, p2⟩ := cellMovesBrit_origin hcm2
  have hii : i2 = i := by rw [← p1, ← hi, o1]
  have hcc : c2 = c := by rw [← p2, ← hc, o2]
  rw [hii, hcc] at hcm2
  obtain ⟨-, k1⟩ := mem_cellMovesBrit.mp hcm1
  obtain ⟨-, k2⟩ := mem_cellMovesBrit.mp hcm2
  rcases k1 with ⟨hw, e1⟩ | ⟨hnw, hja, e1⟩ | ⟨hnw, hna, hjs, e1⟩ |
    ⟨hnw, hna, hns, hjd, e1⟩ <;>
  rcases k2 with ⟨hw2, e2⟩ | ⟨hnw2, hja2, e2⟩ | ⟨hnw2, hna2, hjs2, e2⟩ |
    ⟨hnw2, hna2, hns2, hjd2, e2⟩ <;>
  first
    | exact e1.trans e2.symm
    | exact absurd hw hnw2
    | exact absurd hw2 hnw
    | exact absurd hja hna2
    | exact absurd hja2 hna
    | exact absurd hjs hns2
    | exact absurd hjs2 hns

set_option maxRecDepth 100000 in
/-- C3 counterexample: on `pegElifBoard` the peg at `(2,2)` has legal jumps
both up and left, but the British `get_valid_moves` (the `elif` chain of
dfs.py, cited by the claim) returns only the up move — the left move is
missing from the returned sequence. -/
theorem c3_enumeration_counterexample :
    0 < getCell pegElifBoard 2 2 ∧ wCond pegElifBoard 2 2 ∧ aCond pegElifBoard 2 2 ∧
    getValidMovesBrit pegElifBoard = [⟨2, 2, 'w', 1⟩] ∧
    aMove pegElifBoard 2 2 ∉ getValidMovesBrit pegElifBoard := by
  refine ⟨by decide, by decide, by decide, by decide, by decide⟩

/-- C3 amended: the European `get_valid_moves` returns one move per legal
direction of every peg; the British version returns at most one move per
peg — for every combination of legal directions, a returned move
originating at a peg is exactly the move of the peg's first legal
direction in w, a, s, d order, and later legal directions are omitted. -/
theorem c3_enumeration_amended :
    (∀ (b : PegBoard) (i c : ℤ), inRange i c → 0 < getCell b i c →
      (wCond b i c → wMove b i c ∈ getValidMovesEuro b) ∧
      (aCond b i c → aMove b i c ∈ getValidMovesEuro b) ∧
      (sCond b i c → sMove b i c ∈ getValidMovesEuro b) ∧
      (dCond b i c → dMove b i c ∈ getValidMovesEuro b)) ∧
    (∀ (b : PegBoard) (i c : ℤ) (m : PegMove), inRange i c →
      ((m ∈ getValidMovesBrit b ∧ m.i = i ∧ m.c = c) ↔
        (0 < getCell b i c ∧
          ((wCond b i c ∧ m = wMove b i c) ∨
           (¬wCond b i c ∧ aCond b i c ∧ m = aMove b i c) ∨
           (¬wCond b i c ∧ ¬aCond b i c ∧ sCond b i c ∧ m = sMove b i c) ∨
           (¬wCond b i c ∧ ¬aCond b i c ∧ ¬sCond b i c ∧ dCond b i c ∧
             m = dMove b i c))))) ∧
    (∀ (b : PegBoard) (m1 m2 : PegMove), m1 ∈ getValidMovesBrit b →
      m2 ∈ getValidMovesBrit b → m1.i = m2.i → m1.c = m2.c → m1 = m2) :=
  ⟨fun b i c hr hp => validsEuro_complete b i c hr hp,
    fun b i c m hr => validsBrit_of_peg b i c m hr,
    fun b m1 m2 h1 h2 hi hc => validsBrit_at_most_one b m1 m2 h1 h2 hi hc⟩

set_option maxRecDepth 100000 in
/-- C3 amended witness: the two-direction peg of `pegElifBoard`.  Both
directions appear in the European list; in the British list the w move
originating at `(2,2)` is present and the a move with the same origin is
refuted through the characterisation. -/
theorem c3_enumeration_amended_witness :
    (inRange 2 2 ∧ 0 < getCell pegElifBoard 2 2 ∧
      wCond pegElifBoard 2 2 ∧ aCond pegElifBoard 2 2) ∧
    (wMove pegElifBoard 2 2 ∈ getValidMovesEuro pegElifBoard ∧
      aMove pegElifBoard 2 2 ∈ getValidMovesEuro pegElifBoard) ∧
    (wMove pegElifBoard 2 2 ∈ getValidMovesBrit pegElifBoard ∧
      ¬(aMove pegElifBoard 2 2 ∈ getValidMovesBrit pegElifBoard ∧
        (aMove pegElifBoard 2 2).i = 2 ∧ (aMove pegElifBoard 2 2).c = 2)) :=
  ⟨⟨by decide, by decide, by decide, by decide⟩,
    ⟨(c3_enumeration_amended.1 pegElifBoard 2 2 (by decide) (by decide)).1 (by decide),
      (c3_enumeration_amended.1 pegElifBoard 2 2 (by decide) (by decide)).2.1 (by decide)⟩,
    ((c3_enumeration_amended.2.1 pegElifBoard 2 2 (wMove pegElifBoard 2 2)
        (by decide)).mpr (by decide)).1,
    fun h => absurd ((c3_enumeration_amended.2.1 pegElifBoard 2 2
        (aMove pegElifBoard 2 2) (by decide)).mp h) (by decide)⟩

/-!
Breadth-first search of `european/search-sep.py`.  Every `PegSolitaire`
method there reads and writes the module-level global `board`, not
`self.board`: `make_move` on a freshly cloned instance therefore mutates
the global board (which is the caller's initial Position) and leaves the
clone's own board untouched; only `self.moves` of the clone changes.  The
embedding carries the global board explicitly next to the instance.
`visited` stores `str(board)`, which is injective on boards, so it is
modelled as a list of boards.
-/

/-- A `PegSolitaire` instance as used by `bfs`: its own (cloned) board and
move list.  The `lvl` and `idx` fields only feed prints and are omitted. -/
structure EuroInst where
  iboard : PegBoard
  imoves : List PegMove

/-- `make_move` invoked on an instance, with the module-global board made
explicit: the three cell writes hit the global board, the move is appended
to the instance's list, and the instance's own board is untouched. -/
def euroMakeMove (g : PegBoard) (inst : EuroInst) (m : PegMove) :
    PegBoard × EuroInst :=
  (applyBoard g m, ⟨inst.iboard, inst.imoves ++ [shiftMove m]⟩)

/-- The `for move in curr_board.get_valid_moves()` expansion loop of `bfs`:
threads the global board (mutated by every `make_move`), the dequeued
clone's board `cb` and moves `cm`, the visited set, and collects the
entries actually enqueued. -/
def bfsExpand : PegBoard → PegBoard → List PegMove → List PegMove →
    List PegBoard → PegBoard × List PegBoard × List (PegBoard × List PegMove)
  | g, _, _, [], vis => (g, vis, [])
  | g, cb, cm, m :: ms, vis =>
    let g2 := applyBoard g m
    let nb := cb
    let nm := cm ++ [shiftMove m]
    if nb ∈ vis then bfsExpand g2 cb cm ms vis
    else
      let r := bfsExpand g2 cb cm ms (nb :: vis)
      (r.1, r.2.1, (nb, nm) :: r.2.2)

/-- The `while queue` loop of `bfs`: dequeue, test `is_solved` (which reads
the global board), otherwise expand with the moves of the global board.
The fuel only bounds the number of iterations. -/
def bfsLoop : ℕ → PegBoard → List (PegBoard × List PegMove) → List PegBoard →
    Option (List PegMove)
  | 0, _, _, _ => none
  | _ + 1, _, [], _ => none
  | fuel + 1, g, (cb, cm) :: rest, vis =>
    if isSolvedEuro g then some cm
    else
      let r := bfsExpand g cb cm (getValidMovesEuro g) vis
      bfsLoop fuel r.1 (rest ++ r.2.2) r.2.1

/-- `bfs(root)` (search-sep.py lines 124-165): the queue starts with a clone
of the root board and `visited` with its encoding. -/
def bfsEuro (b : PegBoard) (fuel : ℕ) : Option (List PegMove) :=
  bfsLoop fuel b [(b, [])] [b]

set_option maxRecDepth 100000 in
/-- C4.  In `bfs`, applying a Move to a freshly made clone mutates the
module-global board — the caller's initial Position — while the clone's own
board never changes: clone isolation fails.  Shown on the two-peg board
with its one legal move (the first expansion `bfs` performs from it), and
in general for the instance board. -/
theorem c4_bfs_clone_not_isolated :
    (∀ (g : PegBoard) (inst : EuroInst) (m : PegMove),
      (euroMakeMove g inst m).2.iboard = inst.iboard) ∧
    pegTinyMove ∈ getValidMovesEuro pegTinyBoard ∧
    (euroMakeMove pegTinyBoard ⟨pegTinyBoard, []⟩ pegTinyMove).1 ≠ pegTinyBoard ∧
    (euroMakeMove pegTinyBoard ⟨pegTinyBoard, []⟩ pegTinyMove).2.iboard =
      pegTinyBoard :=
  ⟨fun _ _ _ => rfl, by decide, by decide, rfl⟩

set_option maxRecDepth 100000 in
/-- C5.  Because `make_move` mutates the global board and never the clones,
every enqueued candidate re-encodes as the initial board and is already in
`visited`: nothing is ever enqueued, and `bfs` returns `None` for any
number of iterations — even on the two-peg board that a single enumerated
move turns into a goal Position. -/
theorem c5_bfs_finds_nothing :
    (∀ fuel, bfsEuro pegTinyBoard fuel = none) ∧
    pegTinyMove ∈ getValidMovesEuro pegTinyBoard ∧
    isSolvedEuro (applyBoard pegTinyBoard pegTinyMove) = true ∧
    isSolvedEuro pegTinyBoard = false := by
  refine ⟨?_, by decide, by decide, by decide⟩
  intro fuel
  cases fuel with
  | zero => rfl
  | succ n =>
    cases n with
    | zero => rfl
    | succ k => rfl

/-!
Dedup safety (claim C6).  `PegSolitaire.dfs` prunes a branch whenever the
occupancy bitmask `encode_board` of the current board was seen before.  Two
boards with the same bitmask and the same void pattern have the same sign
pattern, and solvability only depends on the sign pattern, so the pruning
never loses a solution.  This section builds that argument.
-/

/-- Solvability by the moves of the British enumerator: the proposition
that `solve` and `dfs` decide. -/
inductive Solvable : PegBoard → Prop
  | goal (b : PegBoard) : isSolvedBrit b = true → Solvable b
  | step (b : PegBoard) (m : PegMove) : m ∈ getValidMovesBrit b →
      Solvable (applyBoard b m) → Solvable b

/-- Boards with the same sign pattern: same pegs, same holes (hence the
same voids). -/
def SignEq (b1 b2 : PegBoard) : Prop :=
  ∀ i c : ℤ, (0 < getCell b1 i c ↔ 0 < getCell b2 i c) ∧
    (getCell b1 i c < 0 ↔ getCell b2 i c < 0)

theorem zeroEq_refl (b : PegBoard) : ZeroEq b b := fun _ _ => Iff.rfl

theorem zeroEq_symm {b1 b2 : PegBoard} (h : ZeroEq b1 b2) : ZeroEq b2 b1 :=
  fun i c => (h i c).symm

theorem zeroEq_trans {b1 b2 b3 : PegBoard} (h1 : ZeroEq b1 b2)
    (h2 : ZeroEq b2 b3) : ZeroEq b1 b3 :=
  fun i c => (h1 i c).trans (h2 i c)

theorem pegPositions_congr {b1 b2 : PegBoard} (hs : SignEq b1 b2) :
    pegPositions b1 = pegPositions b2 := by
  unfold pegPositions
  apply List.filter_congr
  intro p _
  exact decide_eq_decide.mpr ((hs p.1 p.2).1)

theorem isSolvedBrit_congr {b1 b2 : PegBoard} (hs : SignEq b1 b2) :
    isSolvedBrit b1 = isSolvedBrit b2 := by
  unfold isSolvedBrit
  rw [pegPositions_congr hs]

theorem wCond_congr {b1 b2 : PegBoard} (hs : SignEq b1 b2) (i c : ℤ) :
    wCond b1 i c ↔ wCond b2 i c := by
  unfold wCond
  simp only [gt_iff_lt]
  rw [(hs (i - 2) c).2, (hs (i - 1) c).1]

theorem aCond_congr {b1 b2 : PegBoard} (hs : SignEq b1 b2) (i c : ℤ) :
    aCond b1 i c ↔ aCond b2 i c := by
  unfold aCond
  simp only [gt_iff_lt]
  rw [(hs i (c - 2)).2, (hs i (c - 1)).1]

theorem sCond_congr {b1 b2 : PegBoard} (hs : SignEq b1 b2) (i c : ℤ) :
    sCond b1 i c ↔ sCond b2 i c := by
  unfold sCond
  simp only [gt_iff_lt]
  rw [(hs (i + 2) c).2, (hs (i + 1) c).1]

theorem dCond_congr {b1 b2 : PegBoard} (hs : SignEq b1 b2) (i c : ℤ) :
    dCond b1 i c ↔ dCond b2 i c := by
  unfold dCond
  simp only [gt_iff_lt]
  rw [(hs i (c + 2)).2, (hs i (c + 1)).1]

/-- Jumps over the same three cells on sign-equal boards produce sign-equal
boards. -/
theorem signEq_applyJump {b1 b2 : PegBoard} {oi oc mi mc ti tc : ℤ}
    (hs : SignEq b1 b2)
    (ho : inRange oi oc) (hm : inRange mi mc) (ht : inRange ti tc)
    (hom : ¬(oi = mi ∧ oc = mc)) (hot : ¬(oi = ti ∧ oc = tc))
    (hmt : ¬(mi = ti ∧ mc = tc))
    (hpo1 : 0 < getCell b1 oi oc) :
    SignEq (applyJump b1 oi oc mi mc ti tc) (applyJump b2 oi oc mi mc ti tc) := by
  have hpo2 : 0 < getCell b2 oi oc := (hs oi oc).1.mp hpo1
  intro i c
  by_cases h1 : i = oi ∧ c = oc
  · obtain ⟨rfl, rfl⟩ := h1
    rw [applyJump_get_orig b1 _ _ _ _ _ _ ho, applyJump_get_orig b2 _ _ _ _ _ _ ho]
    omega
  by_cases h2 : i = mi ∧ c = mc
  · obtain ⟨rfl, rfl⟩ := h2
    rw [applyJump_get_mid b1 _ _ _ _ _ _ hm hom hmt,
      applyJump_get_mid b2 _ _ _ _ _ _ hm hom hmt]
    omega
  by_cases h3 : i = ti ∧ c = tc
  · obtain ⟨rfl, rfl⟩ := h3
    rw [applyJump_get_tgt b1 _ _ _ _ _ _ ht hom hot,
      applyJump_get_tgt b2 _ _ _ _ _ _ ht hom hot]
    constructor
    · constructor <;> (intro _; omega)
    · omega
  · rw [applyJump_get_other b1 _ _ _ _ _ _ i c h1 h2 h3,
      applyJump_get_other b2 _ _ _ _ _ _ i c h1 h2 h3]
    exact hs i c

theorem applyBoard_wMove (b b0 : PegBoard) (i c : ℤ) :
    applyBoard b (wMove b0 i c) = applyJump b i c (i - 1) c (i - 2) c := rfl

theorem applyBoard_aMove (b b0 : PegBoard) (i c : ℤ) :
    applyBoard b (aMove b0 i c) = applyJump b i c i (c - 1) i (c - 2) := rfl

theorem applyBoard_sMove (b b0 : PegBoard) (i c : ℤ) :
    applyBoard b (sMove b0 i c) = applyJump b i c (i + 1) c (i + 2) c := rfl

theorem applyBoard_dMove (b b0 : PegBoard) (i c : ℤ) :
    applyBoard b (dMove b0 i c) = applyJump b i c i (c + 1) i (c + 2) := rfl

/-- On sign-equal boards, the same cell contributes corresponding moves,
and applying them keeps the boards sign-equal. -/
theorem cellMoves_transfer {b1 b2 : PegBoard} {i c : ℤ} {m : PegMove}
    (hs : SignEq b1 b2) (hr : inRange i c) (hm : m ∈ cellMovesBrit b1 i c) :
    ∃ m2 ∈ cellMovesBrit b2 i c, SignEq (applyBoard b1 m) (applyBoard b2 m2) := by
  obtain ⟨hp, hcase⟩ := mem_cellMovesBrit.mp hm
  have hp2 : 0 < getCell b2 i c := (hs i c).1.mp hp
  obtain ⟨h1, h2, h3, h4⟩ := hr
  have hN : N - 2 = (5 : ℤ) := by norm_num [N]
  rcases hcase with ⟨hc, he⟩ | ⟨hnw, hc, he⟩ | ⟨hnw, hna, hc, he⟩ | ⟨hnw, hna, hns, hc, he⟩
  · refine ⟨wMove b2 i c, mem_cellMovesBrit.mpr
      ⟨hp2, Or.inl ⟨(wCond_congr hs i c).mp hc, rfl⟩⟩, ?_⟩
    subst he
    rw [applyBoard_wMove, applyBoard_wMove]
    obtain ⟨hg, hc2, hc1⟩ := hc
    exact signEq_applyJump hs ⟨h1, h2, h3, h4⟩ ⟨by omega, by omega, h3, h4⟩
      ⟨by omega, by omega, h3, h4⟩ (by omega) (by omega) (by omega) hp
  · refine ⟨aMove b2 i c, mem_cellMovesBrit.mpr
      ⟨hp2, Or.inr (Or.inl ⟨fun hw2 => hnw ((wCond_congr hs i c).mpr hw2),
        (aCond_congr hs i c).mp hc, rfl⟩)⟩, ?_⟩
    subst he
    rw [applyBoard_aMove, applyBoard_aMove]
    obtain ⟨hg, hc2, hc1⟩ := hc
    exact signEq_applyJump hs ⟨h1, h2, h3, h4⟩ ⟨h1, h2, by omega, by omega⟩
      ⟨h1, h2, by omega, by omega⟩ (by omega) (by omega) (by omega) hp
  · refine ⟨sMove b2 i c, mem_cellMovesBrit.mpr
      ⟨hp2, Or.inr (Or.inr (Or.inl ⟨fun hw2 => hnw ((wCond_congr hs i c).mpr hw2),
        fun ha2 => hna ((aCond_congr hs i c).mpr ha2),
        (sCond_congr hs i c).mp hc, rfl⟩))⟩, ?_⟩
    subst he
    rw [applyBoard_sMove, applyBoard_sMove]
    obtain ⟨hg, hc2, hc1⟩ := hc
    exact signEq_applyJump hs ⟨h1, h2, h3, h4⟩ ⟨by omega, by omega, h3, h4⟩
      ⟨by omega, by omega, h3, h4⟩ (by omega) (by omega) (by omega) hp
  · refine ⟨dMove b2 i c, mem_cellMovesBrit.mpr
      ⟨hp2, Or.inr (Or.inr (Or.inr ⟨fun hw2 => hnw ((wCond_congr hs i c).mpr hw2),
        fun ha2 => hna ((aCond_congr hs i c).mpr ha2),
        fun hs2 => hns ((sCond_congr hs i c).mpr hs2),
        (dCond_congr hs i c).mp hc, rfl⟩))⟩, ?_⟩
    subst he
    rw [applyBoard_dMove, applyBoard_dMove]
    obtain ⟨hg, hc2, hc1⟩ := hc
    exact signEq_applyJump hs ⟨h1, h2, h3, h4⟩ ⟨h1, h2, by omega, by omega⟩
      ⟨h1, h2, by omega, by omega⟩ (by omega) (by omega) (by omega) hp

theorem valids_transfer {b1 b2 : PegBoard} {m : PegMove} (hs : SignEq b1 b2)
    (hm : m ∈ getValidMovesBrit b1) :
    ∃ m2 ∈ getValidMovesBrit b2, SignEq (applyBoard b1 m) (applyBoard b2 m2) := by
  obtain ⟨i, c, hr, hcm⟩ := mem_validsBrit.mp hm
  obtain ⟨m2, hm2, hsig⟩ := cellMoves_transfer hs hr hcm
  exact ⟨m2, mem_validsBrit.mpr ⟨i, c, hr, hm2⟩, hsig⟩

/-- Solvability only depends on the sign pattern of the board. -/
theorem solvable_transfer {b1 : PegBoard} (h : Solvable b1) :
    ∀ b2 : PegBoard, SignEq b1 b2 → Solvable b2 := by
  induction h with
  | goal b hsol =>
    intro b2 hs2
    exact Solvable.goal b2 (by rw [← isSolvedBrit_congr hs2]; exact hsol)
  | step b m hm hsolv ih =>
    intro b2 hs2
    obtain ⟨m2, hm2, hsig⟩ := valids_transfer hs2 hm
    exact Solvable.step b2 m2 hm2 (ih _ hsig)

/-- Base-2 accumulation, the loop of `int(bits, 2)`. -/
def foldTwo (acc : ℕ) (l : List ℕ) : ℕ :=
  l.foldl (fun a d => 2 * a + d) acc

/-- The occupancy bits of a board in row-major order. -/
def bitList (b : PegBoard) : List ℕ :=
  cellList.map (fun p => if 0 < getCell b p.1 p.2 then 1 else 0)

theorem encodeBoard_eq_foldTwo (b : PegBoard) :
    encodeBoard b = foldTwo 0 (bitList b) := by
  unfold encodeBoard bitList foldTwo
  rw [List.foldl_map]

theorem foldTwo_acc : ∀ (l : List ℕ) (acc : ℕ),
    foldTwo acc l = acc * 2 ^ l.length + foldTwo 0 l := by
  intro l
  induction l with
  | nil => intro acc; simp [foldTwo]
  | cons d l ih =>
    intro acc
    show foldTwo (2 * acc + d) l = acc * 2 ^ (l.length + 1) + foldTwo (2 * 0 + d) l
    rw [ih (2 * acc + d), ih (2 * 0 + d)]
    ring

theorem foldTwo_lt : ∀ (l : List ℕ), (∀ d ∈ l, d ≤ 1) →
    foldTwo 0 l < 2 ^ l.length := by
  intro l
  induction l with
  | nil => intro _; simp [foldTwo]
  | cons d l ih =>
    intro hd
    have hd1 : d ≤ 1 := hd d (List.mem_cons_self d l)
    have hr := ih (fun x hx => hd x (List.mem_cons_of_mem d hx))
    show foldTwo (2 * 0 + d) l < 2 ^ (l.length + 1)
    rw [foldTwo_acc l (2 * 0 + d), pow_succ]
    have hK : 0 < 2 ^ l.length := Nat.pos_pow_of_pos _ (by omega)
    rcases Nat.le_one_iff_eq_zero_or_eq_one.mp hd1 with rfl | rfl
    · simp
      omega
    · simp
      omega

theorem foldTwo_inj : ∀ (l1 l2 : List ℕ), l1.length = l2.length →
    (∀ d ∈ l1, d ≤ 1) → (∀ d ∈ l2, d ≤ 1) →
    foldTwo 0 l1 = foldTwo 0 l2 → l1 = l2 := by
  intro l1
  induction l1 with
  | nil =>
    intro l2 hlen _ _ _
    cases l2 with
    | nil => rfl
    | cons x xs => simp at hlen
  | cons d1 t1 ih =>
    intro l2 hlen hb1 hb2 hfold
    cases l2 with
    | nil => simp at hlen
    | cons d2 t2 =>
      have hlen2 : t1.length = t2.length := by simpa using hlen
      have e1 : foldTwo 0 (d1 :: t1) = d1 * 2 ^ t1.length + foldTwo 0 t1 := by
        show foldTwo (2 * 0 + d1) t1 = _
        rw [foldTwo_acc t1 (2 * 0 + d1)]
        ring_nf
      have e2 : foldTwo 0 (d2 :: t2) = d2 * 2 ^ t2.length + foldTwo 0 t2 := by
        show foldTwo (2 * 0 + d2) t2 = _
        rw [foldTwo_acc t2 (2 * 0 + d2)]
        ring_nf
      have ht1 := foldTwo_lt t1 (fun x hx => hb1 x (List.mem_cons_of_mem d1 hx))
      have ht2 := foldTwo_lt t2 (fun x hx => hb2 x (List.mem_cons_of_mem d2 hx))
      have hd1 : d1 ≤ 1 := hb1 d1 (List.mem_cons_self d1 t1)
      have hd2 : d2 ≤ 1 := hb2 d2 (List.mem_cons_self d2 t2)
      rw [e1, e2, hlen2] at hfold
      rw [hlen2] at ht1
      have hdd : d1 = d2 ∧ foldTwo 0 t1 = foldTwo 0 t2 := by
        rcases Nat.le_one_iff_eq_zero_or_eq_one.mp hd1 with rfl | rfl <;>
          rcases Nat.le_one_iff_eq_zero_or_eq_one.mp hd2 with rfl | rfl <;> omega
      rw [hdd.1]
      rw [ih t2 hlen2 (fun x hx => hb1 x (List.mem_cons_of_mem d1 hx))
        (fun x hx => hb2 x (List.mem_cons_of_mem d2 hx)) hdd.2]

theorem map_eq_on {α β : Type} {l : List α} {f g : α → β}
    (h : l.map f = l.map g) : ∀ x ∈ l, f x = g x := by
  induction l with
  | nil => simp
  | cons a l ih =>
    simp only [List.map_cons, List.cons.injEq] at h
    intro x hx
    rcases List.mem_cons.mp hx with rfl | hx
    · exact h.1
    · exact ih h.2 x hx

/-- Equal `encode_board` bitmasks mean the same pegs everywhere. -/
theorem encode_posEq {b1 b2 : PegBoard} (he : encodeBoard b1 = encodeBoard b2) :
    ∀ i c : ℤ, 0 < getCell b1 i c ↔ 0 < getCell b2 i c := by
  have hbits : ∀ b : PegBoard, ∀ d ∈ bitList b, d ≤ 1 := by
    intro b d hd
    obtain ⟨p, _, hpd⟩ := List.mem_map.mp hd
    rw [← hpd]
    split_ifs <;> omega
  have hb : bitList b1 = bitList b2 := by
    apply foldTwo_inj _ _ (by simp [bitList]) (hbits b1) (hbits b2)
    rw [← encodeBoard_eq_foldTwo, ← encodeBoard_eq_foldTwo]
    exact he
  intro i c
  by_cases hr : inRange i c
  · have hp := map_eq_on hb (i, c) (mem_cellList.mpr hr)
    by_cases hx : 0 < getCell b1 i c <;> by_cases hy : 0 < getCell b2 i c <;>
      simp [hx, hy] at hp ⊢
  · unfold getCell
    simp [hr]

/-- Equal bitmasks mean equal peg counts. -/
theorem encode_pegCount {b1 b2 : PegBoard}
    (he : encodeBoard b1 = encodeBoard b2) : pegCount b1 = pegCount b2 := by
  unfold pegCount
  apply congrArg Finset.card
  apply Finset.filter_congr
  intro p _
  have h := encode_posEq he p.1 p.2
  rw [getCell_of_fin, getCell_of_fin] at h
  exact h

/-- Equal bitmasks and equal void patterns mean equal sign patterns. -/
theorem encode_signEq {b1 b2 : PegBoard} (hz : ZeroEq b1 b2)
    (he : encodeBoard b1 = encodeBoard b2) : SignEq b1 b2 := by
  intro i c
  have h1 := encode_posEq he i c
  have h2 := hz i c
  exact ⟨h1, by omega⟩

/-- Soundness of `solve`: a `True` answer means the board is solvable. -/
theorem solveS_sound : ∀ (fuel : ℕ) (s : PegState), WellFormed s.board →
    (solveS fuel s).1 = true → Solvable s.board := by
  intro fuel
  induction fuel with
  | zero => intro s _ h; simp [solveS] at h
  | succ fuel ih =>
    have loop : ∀ (ms : List PegMove) (s : PegState), WellFormed s.board →
        (∀ m ∈ ms, m ∈ getValidMovesBrit s.board) →
        (solveLoopF (solveS fuel) s ms).1 = true → Solvable s.board := by
      intro ms
      induction ms with
      | nil => intro s _ _ h; simp [solveLoopF] at h
      | cons m rest ihm =>
        intro s hwf hms htrue
        have hmv : m ∈ getValidMovesBrit s.board := hms m (List.mem_cons_self m rest)
        have hwf1 : WellFormed (makeMove s m).board := wellFormed_apply_brit hwf hmv
        by_cases hr : (solveS fuel (makeMove s m)).1 = true
        · exact Solvable.step s.board m hmv (ih (makeMove s m) hwf1 hr)
        · have hrf : (solveS fuel (makeMove s m)).1 = false := by
            revert hr; cases (solveS fuel (makeMove s m)).1 <;> simp
          have hundo : undoMove (solveS fuel (makeMove s m)).2 = s := by
            rw [solveS_frame fuel (makeMove s m) hwf1 hrf]
            exact undo_make hwf hmv
          simp only [solveLoopF, if_neg hr] at htrue
          rw [hundo] at htrue
          exact ihm s hwf (fun x hx => hms x (List.mem_cons_of_mem m hx)) htrue
    intro s hwf htrue
    by_cases hsol : isSolvedBrit s.board = true
    · exact Solvable.goal s.board hsol
    · have he : solveS (fuel + 1) s =
          solveLoopF (solveS fuel) s (getValidMovesBrit s.board) := by
        simp [solveS, hsol]
      rw [he] at htrue
      exact loop _ s hwf (fun x hx => hx) htrue

/-- Completeness of `solve`: a solvable board makes `solve` answer `True`
for any fuel beyond the peg count. -/
theorem solvable_solveS {b : PegBoard} (h : Solvable b) :
    ∀ (s : PegState) (fuel : ℕ), s.board = b → WellFormed b →
    pegCount b < fuel → (solveS fuel s).1 = true := by
  induction h with
  | goal b hsol =>
    intro s fuel hsb hwf hfuel
    obtain ⟨f0, rfl⟩ : ∃ f0, fuel = f0 + 1 := ⟨fuel - 1, by omega⟩
    simp [solveS, hsb, hsol]
  | step b m hm hsolv ih =>
    intro s fuel hsb hwf hfuel
    obtain ⟨f0, rfl⟩ : ∃ f0, fuel = f0 + 1 := ⟨fuel - 1, by omega⟩
    by_cases hsol : isSolvedBrit s.board = true
    · simp [solveS, hsol]
    · have hloop : ∀ (ms : List PegMove) (s : PegState), s.board = b →
          WellFormed s.board →
          (∀ x ∈ ms, x ∈ getValidMovesBrit s.board) → m ∈ ms →
          (solveLoopF (solveS f0) s ms).1 = true := by
        intro ms
        induction ms with
        | nil => intro s _ _ _ hmem; exact absurd hmem (List.not_mem_nil m)
        | cons x rest ihm =>
          intro s hsb2 hwf2 hms hmem
          by_cases hr : (solveS f0 (makeMove s x)).1 = true
          · simp [solveLoopF, hr]
          · have hxv : x ∈ getValidMovesBrit s.board :=
              hms x (List.mem_cons_self x rest)
            have hwfx : WellFormed (makeMove s x).board :=
              wellFormed_apply_brit hwf2 hxv
            have hrf : (solveS f0 (makeMove s x)).1 = false := by
              revert hr; cases (solveS f0 (makeMove s x)).1 <;> simp
            rcases List.mem_cons.mp hmem with heq | hmem2
            · exfalso
              apply hr
              apply ih (makeMove s x) f0
              · show applyBoard s.board x = applyBoard b m
                rw [hsb2, heq]
              · rw [heq, ← hsb2]
                exact wellFormed_apply_brit hwf2 hxv
              · rw [heq, ← hsb2]
                have hdec : pegCount (applyBoard s.board x) + 1 = pegCount s.board :=
                  pegCount_apply_brit hxv
                have hcb : pegCount s.board = pegCount b := by rw [hsb2]
                omega
            · have hundo : undoMove (solveS f0 (makeMove s x)).2 = s := by
                rw [solveS_frame f0 (makeMove s x) hwfx hrf]
                exact undo_make hwf2 hxv
              simp only [solveLoopF, if_neg hr]
              rw [hundo]
              exact ihm s hsb2 hwf2
                (fun y hy => hms y (List.mem_cons_of_mem x hy)) hmem2
      have he : solveS (f0 + 1) s =
          solveLoopF (solveS f0) s (getValidMovesBrit s.board) := by
        simp [solveS, hsol]
      rw [he]
      apply hloop _ s hsb (by rw [hsb]; exact hwf) (fun y hy => hy)
      rw [hsb]
      exact hm

/-- Soundness of `dfs`: a `True` answer means the board is solvable. -/
theorem dfsS_sound : ∀ (fuel : ℕ) (s : PegState) (vis : List ℕ),
    WellFormed s.board → (dfsS fuel s vis).1 = true → Solvable s.board := by
  intro fuel
  induction fuel with
  | zero => intro s vis _ h; simp [dfsS] at h
  | succ fuel ih =>
    have loop : ∀ (ms : List PegMove) (s : PegState) (vis : List ℕ),
        WellFormed s.board →
        (∀ m ∈ ms, m ∈ getValidMovesBrit s.board) →
        (dfsLoopF (dfsS fuel) s ms vis).1 = true → Solvable s.board := by
      intro ms
      induction ms with
      | nil => intro s vis _ _ h; simp [dfsLoopF] at h
      | cons m rest ihm =>
        intro s vis hwf hms htrue
        have hmv : m ∈ getValidMovesBrit s.board := hms m (List.mem_cons_self m rest)
        have hwf1 : WellFormed (makeMove s m).board := wellFormed_apply_brit hwf hmv
        by_cases hr : (dfsS fuel (makeMove s m) vis).1 = true
        · exact Solvable.step s.board m hmv (ih (makeMove s m) vis hwf1 hr)
        · have hrf : (dfsS fuel (makeMove s m) vis).1 = false := by
            revert hr; cases (dfsS fuel (makeMove s m) vis).1 <;> simp
          have hundo : undoMove (dfsS fuel (makeMove s m) vis).2.1 = s := by
            rw [dfsS_frame fuel (makeMove s m) vis hwf1 hrf]
            exact undo_make hwf hmv
          simp only [dfsLoopF, if_neg hr] at htrue
          rw [hundo] at htrue
          exact ihm s _ hwf (fun x hx => hms x (List.mem_cons_of_mem m hx)) htrue
    intro s vis hwf htrue
    by_cases hv : encodeBoard s.board ∈ vis
    · simp [dfsS, hv] at htrue
    by_cases hsol : isSolvedBrit s.board = true
    · exact Solvable.goal s.board hsol
    · have he : dfsS (fuel + 1) s vis = dfsLoopF (dfsS fuel) s
          (getValidMovesBrit s.board) (encodeBoard s.board :: vis) := by
        simp [dfsS, hv, hsol]
      rw [he] at htrue
      exact loop _ s _ hwf (fun x hx => hx) htrue

/-- A stuck, unsolved board with no solvable successor is unsolvable. -/
theorem not_solvable_of_no_good_move {b : PegBoard}
    (hsol : isSolvedBrit b = false)
    (hmv : ∀ m ∈ getValidMovesBrit b, ¬Solvable (applyBoard b m)) :
    ¬Solvable b := by
  intro hs
  cases hs with
  | goal b h => rw [hsol] at h; exact Bool.noConfusion h
  | step b m hm hsolv => exact hmv m hm hsolv

/-- An encoding is below level n when every board carrying it has at most
n pegs. -/
def Below (n : ℕ) (e : ℕ) : Prop :=
  ∀ b : PegBoard, encodeBoard b = e → pegCount b ≤ n

/-- A visited set is good at level n relative to a reference board when
each stored encoding certifies unsolvability of every matching board with
the same void pattern and at most n pegs. -/
def Good (b0 : PegBoard) (n : ℕ) (vis : List ℕ) : Prop :=
  ∀ e ∈ vis, ∀ b : PegBoard, ZeroEq b b0 → encodeBoard b = e →
    pegCount b ≤ n → ¬Solvable b

/-- Goodness only depends on the reference board through its void
pattern. -/
theorem good_congr {b0 b1 : PegBoard} (hz : ZeroEq b0 b1) {n : ℕ}
    {vis : List ℕ} (hg : Good b0 n vis) : Good b1 n vis :=
  fun e he b hzb henc hpc =>
    hg e he b (zeroEq_trans hzb (zeroEq_symm hz)) henc hpc

/-- The visited set never hides a solvable board: a `False` answer of
`dfs` on a good visited set certifies unsolvability and yields a good
visited set again. -/
theorem dfs_complete : ∀ (n : ℕ) (s : PegState) (vis : List ℕ) (fuel : ℕ),
    WellFormed s.board → pegCount s.board = n → n < fuel →
    Good s.board n vis → (dfsS fuel s vis).1 = false →
    ¬Solvable s.board ∧ Good s.board n (dfsS fuel s vis).2.2 ∧
    (∀ e ∈ (dfsS fuel s vis).2.2, e ∈ vis ∨ Below n e) := by
  intro n
  induction n using Nat.strong_induction_on with
  | _ n ihn =>
    intro s vis fuel hwf hpc hfl hgood hfalse
    obtain ⟨f, rfl⟩ : ∃ f, fuel = f + 1 := ⟨fuel - 1, by omega⟩
    by_cases hv : encodeBoard s.board ∈ vis
    · have he : dfsS (f + 1) s vis = (false, s, vis) := by simp [dfsS, hv]
      rw [he]
      refine ⟨hgood _ hv s.board (zeroEq_refl _) rfl (by omega), hgood,
        fun e hev => Or.inl hev⟩
    by_cases hsol : isSolvedBrit s.board = true
    · simp [dfsS, hv, hsol] at hfalse
    have hsolf : isSolvedBrit s.board = false := by
      revert hsol; cases isSolvedBrit s.board <;> simp
    have loop : ∀ (ms : List PegMove) (s : PegState) (vis1 : List ℕ),
        WellFormed s.board → pegCount s.board = n →
        (∀ m ∈ ms, m ∈ getValidMovesBrit s.board) →
        Good s.board (n - 1) vis1 →
        (dfsLoopF (dfsS f) s ms vis1).1 = false →
        (∀ m ∈ ms, ¬Solvable (applyBoard s.board m)) ∧
        Good s.board (n - 1) (dfsLoopF (dfsS f) s ms vis1).2.2 ∧
        (∀ e ∈ (dfsLoopF (dfsS f) s ms vis1).2.2,
          e ∈ vis1 ∨ Below (n - 1) e) := by
      intro ms
      induction ms with
      | nil =>
        intro s vis1 _ _ _ hg _
        exact ⟨fun m hm => absurd hm (List.not_mem_nil m), hg,
          fun e hev => Or.inl hev⟩
      | cons m rest ihm =>
        intro s vis1 hwf2 hpc2 hms hg hfl2
        have hmv : m ∈ getValidMovesBrit s.board :=
          hms m (List.mem_cons_self m rest)
        have hwfc : WellFormed (makeMove s m).board :=
          wellFormed_apply_brit hwf2 hmv
        have hzc : ZeroEq (makeMove s m).board s.board := zeroEq_apply_brit hmv
        have hpcc : pegCount (makeMove s m).board + 1 = n := by
          rw [← hpc2]; exact pegCount_apply_brit hmv
        by_cases hr : (dfsS f (makeMove s m) vis1).1 = true
        · simp only [dfsLoopF, if_pos hr] at hfl2
          rw [hfl2] at hr
          exact Bool.noConfusion hr
        · have hrf : (dfsS f (makeMove s m) vis1).1 = false := by
            revert hr; cases (dfsS f (makeMove s m) vis1).1 <;> simp
          have hchild := ihn (n - 1) (by omega) (makeMove s m) vis1 f hwfc
            (by omega) (by omega) (good_congr (zeroEq_symm hzc) hg) hrf
          obtain ⟨hcns, hcgood, hcP⟩ := hchild
          have hundo : undoMove (dfsS f (makeMove s m) vis1).2.1 = s := by
            rw [dfsS_frame f (makeMove s m) vis1 hwfc hrf]
            exact undo_make hwf2 hmv
          have heq : dfsLoopF (dfsS f) s (m :: rest) vis1 =
              dfsLoopF (dfsS f) s rest (dfsS f (makeMove s m) vis1).2.2 := by
            simp only [dfsLoopF, if_neg hr]
            rw [hundo]
          rw [heq] at hfl2 ⊢
          have hrest := ihm s ((dfsS f (makeMove s m) vis1).2.2) hwf2 hpc2
            (fun x hx => hms x (List.mem_cons_of_mem m hx))
            (good_congr hzc hcgood) hfl2
          obtain ⟨hrns, hrgood, hrP⟩ := hrest
          refine ⟨?_, hrgood, ?_⟩
          · intro x hx
            rcases List.mem_cons.mp hx with hxm | hx2
            · rw [hxm]; exact hcns
            · exact hrns x hx2
          · intro e hev
            rcases hrP e hev with hev2 | hbel
            · exact hcP e hev2
            · exact Or.inr hbel
    have he : dfsS (f + 1) s vis = dfsLoopF (dfsS f) s
        (getValidMovesBrit s.board) (encodeBoard s.board :: vis) := by
      simp [dfsS, hv, hsol]
    rw [he] at hfalse ⊢
    have hself : Below n (encodeBoard s.board) := by
      intro b hbe
      rw [encode_pegCount hbe, hpc]
    by_cases hn : n = 0
    · have hnil : getValidMovesBrit s.board = [] := by
        cases hvm : getValidMovesBrit s.board with
        | nil => rfl
        | cons m rest =>
          exfalso
          have : 0 < pegCount s.board :=
            pegCount_pos_of_mem (hvm ▸ List.mem_cons_self m rest)
          omega
      rw [hnil] at hfalse ⊢
      have hns : ¬Solvable s.board :=
        not_solvable_of_no_good_move hsolf
          (fun m hm => absurd hm (by rw [hnil]; exact List.not_mem_nil m))
      refine ⟨hns, ?_, ?_⟩
      · intro e hev b hzb hbe hbc
        rcases List.mem_cons.mp hev with rfl | hev2
        · intro hsb
          exact hns (solvable_transfer hsb s.board (encode_signEq hzb hbe))
        · exact hgood e hev2 b hzb hbe (by omega)
      · intro e hev
        rcases List.mem_cons.mp hev with rfl | hev2
        · exact Or.inr (by rw [hn] at hself ⊢; exact hself)
        · exact Or.inl hev2
    · have hg1 : Good s.board (n - 1) (encodeBoard s.board :: vis) := by
        intro e hev b hzb hbe hbc
        rcases List.mem_cons.mp hev with rfl | hev2
        · have := encode_pegCount hbe
          omega
        · exact hgood e hev2 b hzb hbe (by omega)
      obtain ⟨hlns, hlgood, hlP⟩ := loop (getValidMovesBrit s.board) s
        (encodeBoard s.board :: vis) hwf hpc (fun x hx => hx) hg1 hfalse
      have hns : ¬Solvable s.board := not_solvable_of_no_good_move hsolf hlns
      refine ⟨hns, ?_, ?_⟩
      · intro e hev b hzb hbe hbc
        by_cases hb1 : pegCount b ≤ n - 1
        · exact hlgood e hev b hzb hbe hb1
        · rcases hlP e hev with hev2 | hbel
          · rcases List.mem_cons.mp hev2 with rfl | hev3
            · intro hsb
              exact hns (solvable_transfer hsb s.board (encode_signEq hzb hbe))
            · exact hgood e hev3 b hzb hbe hbc
          · exact absurd (hbel b hbe) hb1
      · intro e hev
        rcases hlP e hev with hev2 | hbel
        · rcases List.mem_cons.mp hev2 with rfl | hev3
          · exact Or.inr hself
          · exact Or.inl hev3
        · exact Or.inr (fun b hbe => Nat.le_trans (hbel b hbe) (Nat.sub_le n 1))

/-- C6: the deduplication in `PegSolitaire.dfs` is safe.  Although a board
is marked visited before its subtree is explored and never unmarked, the
search with the visited set of encoded boards answers `True` exactly when
the exhaustive `solve` does, for any sufficient fuel: an encoding match
forces an equal peg pattern, and together with the invariant void pattern
an equal sign pattern, under which solvability transfers. -/
theorem c6_dedup_safety (s : PegState) (fuel1 fuel2 : ℕ)
    (hwf : WellFormed s.board) (h1 : pegCount s.board < fuel1)
    (h2 : pegCount s.board < fuel2) :
    ((dfsS fuel1 s []).1 = true ↔ (solveS fuel2 s).1 = true) := by
  constructor
  · intro h
    exact solvable_solveS (dfsS_sound fuel1 s [] hwf h) s fuel2 rfl hwf h2
  · intro h
    by_contra hne
    have hf : (dfsS fuel1 s []).1 = false := by
      revert hne; cases (dfsS fuel1 s []).1 <;> simp
    have hm := dfs_complete (pegCount s.board) s [] fuel1 hwf rfl h1
      (fun e he => absurd he (List.not_mem_nil e)) hf
    exact hm.1 (solveS_sound fuel2 s hwf h)

set_option maxRecDepth 100000 in
/-- Witness for C6 at the concrete two-peg board with fuel 3. -/
theorem c6_dedup_safety_witness :
    WellFormed pegTinyBoard ∧ pegCount pegTinyBoard < 3 ∧
      ((dfsS 3 ⟨pegTinyBoard, []⟩ []).1 = true ↔
        (solveS 3 ⟨pegTinyBoard, []⟩).1 = true) :=
  ⟨by decide, by decide,
    c6_dedup_safety ⟨pegTinyBoard, []⟩ 3 3 (by decide) (by decide) (by decide)⟩

end Arcade
